import Mathlib

/-!
Shallow embedding of `mso/optimizer.py`: the particle-swarm optimizer driver
(fitness aggregation with score caching, best-solution bookkeeping, and the
sequential / batched / process-parallel optimization loops), together with
theorems settling the specification claims.

External collaborators declared out of scope by the spec (the embedding model,
the swarm particle mechanics, the scoring-function implementations and SMILES
canonicalization) are modelled as parameters gathered in `Env` and in the
fields of `SF`, exactly at the interface the optimizer uses.  Python floats
are modelled as rationals; a raised exception is modelled by `Option`
returning `none`.
-/

/-- A SMILES molecule string. -/
abbrev Smi := String

/-- An opaque parsed molecule (an rdkit mol object), abstracted. -/
abbrev Mol := String

/-- An opaque point of the continuous embedding space (one particle position). -/
abbrev Emb := Int

/-- The state of the pseudo-random stream consumed by the swarm steps. -/
abbrev Rng := List Int

/-- Python `d[k] = v` on a `dict` modelled as an insertion-ordered association
list: overwrite in place if the key is present, else append at the end. -/
def dictInsert {α : Type} (k : String) (v : α) :
    List (String × α) → List (String × α)
  | [] => [(k, v)]
  | (k', v') :: rest =>
    if k' = k then (k, v) :: rest else (k', v') :: dictInsert k v rest

/-- Python `d[k]` lookup; `none` models a raised `KeyError`. -/
def dictGet? {α : Type} (d : List (String × α)) (k : String) : Option α :=
  match d with
  | [] => none
  | (k', v) :: rest => if k' = k then some v else dictGet? rest k

/-- Python `k in d`. -/
def dictContains {α : Type} (d : List (String × α)) (k : String) : Bool :=
  match d with
  | [] => false
  | (k', _) :: rest => k' = k || dictContains rest k

/-- The swarm object at the interface the optimizer reads and writes
(spec §3/§6; the particle mechanics themselves are out of scope). -/
structure Swarm where
  num_part : Nat
  x : List Emb
  smiles : List Smi
  fitness : List ℚ
  swarm_best_fitness : ℚ
  best_smiles : Smi
  unscaled_scores : List (String × List ℚ)
  scaled_scores : List (String × List ℚ)
  desirability_scores : List (String × List ℚ)
deriving DecidableEq

/-- A scoring-function descriptor (spec §6): a name, a weight, whether it
takes decoded molecules or embedding points, and the scoring callable
producing (unscaled, scaled, desirability, residues).  The single Python
callable is split into `call_mol`/`call_emb` according to `is_mol_func`. -/
structure SF where
  name : String
  weight : ℚ
  is_mol_func : Bool
  call_mol : List (Option Mol) → List ℚ × List ℚ × List ℚ × List String
  call_emb : List Emb → List ℚ × List ℚ × List ℚ × List String

/-- The external collaborators used by the optimizer: SMILES
canonicalization, rdkit parsing, the embedding model's decode / encode maps
and the swarm's own `next_step` mutator (which is the only consumer of the
pseudo-random stream). -/
structure Env where
  canonicalize : Smi → Smi
  molFromSmiles : Smi → Option Mol
  embToSeq : List Emb → List Smi
  seqToEmb : List Smi → List Emb
  nextStep : Rng → Swarm → Swarm × Rng

/-- The four score caches of the optimizer, keyed by canonical SMILES
(`smi_to_unscaled_scores`, `smi_to_scaled_scores`,
`smi_to_desirability_scores`, `smi_to_residues`). -/
structure Caches where
  unscaled : List (Smi × ℚ)
  scaled : List (Smi × ℚ)
  desirability : List (Smi × ℚ)
  residues : List (Smi × String)
deriving DecidableEq

/-- First index attaining the maximum, with that maximum (`np.argmax`
semantics: ties resolved to the first index); `none` on the empty list. -/
def argmaxQ : List ℚ → Option (Nat × ℚ)
  | [] => none
  | q :: qs =>
    match argmaxQ qs with
    | none => some (0, q)
    | some (j, m) => if q < m then some (j + 1, m) else some (0, q)

/-- Modelled from the spec: the swarm's `update_fitness(fitness_array)`
mutator (spec §3 and §6 — the particle-mechanics object is out of scope of
the optimizer module): it assigns the fitness vector to the swarm and
updates the swarm-local best-ever fitness and molecule when improved. -/
def Swarm.assignFitness (s : Swarm) (f : List ℚ) : Swarm :=
  match argmaxQ f with
  | none => { s with fitness := f }
  | some (i, bf) =>
    if s.swarm_best_fitness < bf then
      { s with fitness := f, swarm_best_fitness := bf,
               best_smiles := s.smiles.getD i "" }
    else
      { s with fitness := f }

/-- Line 76 of `optimizer.py`: the canonical SMILES of the swarm that are not
yet cached.  Python iterates a `set`, whose order is unspecified; per-key
results do not depend on that order, and we fix it via `List.dedup`. -/
def uniqSmis (c : Caches) (smiles : List Smi) : List Smi :=
  smiles.dedup.filter (fun s => !dictContains c.unscaled s)

/-- Lines 81–87: record one batch of scoring results in the four caches,
pairing `uniq_smis` with the four output vectors (Python `zip` truncates at
the shortest list). -/
def recordScores (c : Caches) :
    List Smi → List ℚ → List ℚ → List ℚ → List String → Caches
  | smi :: ss, u :: us, sc :: scs, d :: ds, r :: rs =>
    recordScores
      { unscaled := dictInsert smi u c.unscaled
        scaled := dictInsert smi sc c.scaled
        desirability := dictInsert smi d c.desirability
        residues := dictInsert smi r c.residues } ss us scs ds rs
  | _, _, _, _, _ => c

/-- Apply a fallible function to every element of a list, producing the
collected results or `none` when any application fails: a Python list
comprehension whose body may raise. -/
def collectSome {α β : Type} (f : α → Option β) : List α → Option (List β)
  | [] => some []
  | a :: as =>
    match f a, collectSome f as with
    | some b, some bs => some (b :: bs)
    | _, _ => none

/-- A comprehension of raising dict lookups, `[d[k] for k in ks]`. -/
def lookupAll {α : Type} (d : List (String × α)) (ks : List String) :
    Option (List α) :=
  collectSome (fun k => dictGet? d k) ks

/-- Lines 89–91: remap the cached scores onto the full particle list by
cache lookup; a missing key is Python's `KeyError`. -/
def remapScores (c : Caches) (smiles : List Smi) :
    Option (List ℚ × List ℚ × List ℚ) :=
  match lookupAll c.unscaled smiles with
  | none => none
  | some u =>
    match lookupAll c.scaled smiles with
    | none => none
    | some s =>
      match lookupAll c.desirability smiles with
      | none => none
      | some d => some (u, s, d)

/-- Lines 95–97: store one scoring function's per-particle vectors in the
swarm's diagnostic maps, keyed by the function's name. -/
def storeMaps (sw : Swarm) (nm : String) (u s d : List ℚ) : Swarm :=
  { sw with
    unscaled_scores := dictInsert nm u sw.unscaled_scores
    scaled_scores := dictInsert nm s sw.scaled_scores
    desirability_scores := dictInsert nm d sw.desirability_scores }

/-- Line 98, `fitness += scaled_scores`: `fitness` starts as the Python
integer `0`, so the first addition is a numpy broadcast that simply adopts
the array; later additions are elementwise (numpy raises on a genuine shape
mismatch; theorems below always work at equal lengths). -/
def accAdd : Option (List ℚ) → List ℚ → Option (List ℚ)
  | none, v => some v
  | some u, v => some (List.zipWith (· + ·) u v)

/-- Lines 78–99: the loop over the scoring functions, threading the caches,
the swarm's diagnostic maps, the accumulated fitness and the weight sum. -/
def updFold (env : Env) (mol_list : List (Option Mol)) (uniq : List Smi) :
    List SF → Caches → Swarm → Option (List ℚ) → ℚ →
    Option (Caches × Swarm × Option (List ℚ) × ℚ)
  | [], c, sw, fit, ws => some (c, sw, fit, ws)
  | sf :: rest, c, sw, fit, ws =>
    if sf.is_mol_func then
      match sf.call_mol mol_list with
      | (u, s, d, r) =>
        let c' := recordScores c uniq u s d r
        match remapScores c' sw.smiles with
        | none => none
        | some (uv, sv, dv) =>
          updFold env mol_list uniq rest c' (storeMaps sw sf.name uv sv dv)
            (accAdd fit sv) (ws + sf.weight)
    else
      match sf.call_emb sw.x with
      | (uv, sv, dv, _) =>
        updFold env mol_list uniq rest c (storeMaps sw sf.name uv sv dv)
          (accAdd fit sv) (ws + sf.weight)

/-- `BasePSOptimizer.update_fitness` (lines 62–102).  Canonicalizes the
swarm's SMILES, computes the not-yet-cached unique SMILES, parses them, runs
every scoring function (molecule-based ones only on the novel molecules,
remapping through the caches; embedding-based ones directly on the
positions), divides the accumulated fitness by the weight sum and assigns it
to the swarm.  `none` models a raised exception: a `KeyError` during the
remap, or the `ZeroDivisionError` of the integer division `0 / 0` when the
scoring-function list is empty.  With a non-empty list and a zero weight
sum, numpy's array division raises nothing and yields non-finite values;
rational division by zero stands in for that (the value at weight sum zero
is not otherwise used by any theorem). -/
def update_fitness (env : Env) (sfs : List SF) (c : Caches) (swarm : Swarm) :
    Option (Caches × Swarm) :=
  let swarm' := { swarm with smiles := swarm.smiles.map env.canonicalize }
  let uniq := uniqSmis c swarm'.smiles
  let mol_list := uniq.map env.molFromSmiles
  match updFold env mol_list uniq sfs c swarm' none 0 with
  | none => none
  | some (c', sw', fitOpt, ws) =>
    match fitOpt with
    | none => none
    | some fv => some (c', sw'.assignFitness (fv.map (· / ws)))

/-- Sum of the scoring-function weights (accumulated at line 99). -/
def weightSum (sfs : List SF) : ℚ := (sfs.map (fun f => f.weight)).sum

/-- One row of the `best_solutions` dataframe (columns smiles, fitness,
residues). -/
structure BestRow where
  smiles : Smi
  fitness : ℚ
  residues : String
deriving DecidableEq

/-- One row of the `best_fitness_history` dataframe (columns step, swarm,
fitness, smiles, residues). -/
structure HistRow where
  step : Nat
  swarm : Nat
  fitness : ℚ
  smiles : Smi
  residues : String
deriving DecidableEq

/-- The optimizer instance state (`BasePSOptimizer.__init__`): the swarms,
the two bookkeeping dataframes, the four score caches and the canonicalized
initial-seed SMILES set. -/
structure OptState where
  swarms : List Swarm
  best_solutions : List BestRow
  best_fitness_history : List HistRow
  caches : Caches
  init_smiles_set : List Smi
deriving DecidableEq

/-- `drop_duplicates("smiles")` (line 134): keep the first row carrying each
SMILES key.  The `seen` accumulator holds the keys already kept. -/
def dropDupSmiles (seen : List Smi) : List BestRow → List BestRow
  | [] => []
  | r :: rs =>
    if r.smiles ∈ seen then dropDupSmiles seen rs
    else r :: dropDupSmiles (r.smiles :: seen) rs

/-- The descending-fitness order used by `sort_values("fitness",
ascending=False)` (line 135). -/
def fitGe (a b : BestRow) : Prop := b.fitness ≤ a.fitness

instance : DecidableRel fitGe := fun a b => inferInstanceAs (Decidable (b.fitness ≤ a.fitness))

instance : IsTotal BestRow fitGe := ⟨fun a b => (le_total b.fitness a.fitness).imp id id⟩

instance : IsTrans BestRow fitGe := ⟨fun _ _ _ h h' => le_trans h' h⟩

/-- `BasePSOptimizer._update_best_solutions` (lines 118–141).  Builds the
step's rows from every swarm's particles (the residues lookup may raise
`KeyError`, modelled by `none`), removes the rows whose SMILES is a seed,
concatenates with the previous table, drops duplicate SMILES keeping the
first occurrence, sorts by descending fitness and truncates to `num_track`.
The returned max/min/mean are only printed by the callers and are not part
of the state; they are modelled separately by `fitnessMean`. -/
def update_best_solutions (num_track : Nat) (st : OptState) :
    Option OptState :=
  match lookupAll st.caches.residues
      (st.swarms.flatMap (fun s => s.smiles)) with
  | none => none
  | some residues =>
    let smiles := st.swarms.flatMap (fun s => s.smiles)
    let fits := st.swarms.flatMap (fun s => s.fitness)
    let rows := (smiles.zip (fits.zip residues)).map
      (fun p => BestRow.mk p.1 p.2.1 p.2.2)
    let rows := rows.filter (fun r => !(st.init_smiles_set.contains r.smiles))
    let merged := dropDupSmiles [] (st.best_solutions ++ rows)
    let merged := merged.insertionSort fitGe
    some { st with best_solutions := merged.take num_track }

/-- `Series.mean()` over the fitness column; `none` models pandas' `NaN` on
an empty series. -/
def fitnessMean (rows : List BestRow) : Option ℚ :=
  match rows with
  | [] => none
  | _ => some ((rows.map (fun r => r.fitness)).sum / rows.length)

/-- `BasePSOptimizer._update_best_fitness_history` (lines 143–156): appends
one row per swarm recording that swarm's best-so-far fitness and molecule at
the given step (the residues lookup may raise `KeyError`). -/
def update_best_fitness_history (step : Nat) (st : OptState) :
    Option OptState :=
  match lookupAll st.caches.residues
      (st.swarms.map (fun s => s.best_smiles)) with
  | none => none
  | some residues =>
    let fits := st.swarms.map (fun s => s.swarm_best_fitness)
    let smiles := st.swarms.map (fun s => s.best_smiles)
    let idx := List.range st.swarms.length
    let rows := (idx.zip ((fits.zip smiles).zip residues)).map
      (fun p => HistRow.mk step p.1 p.2.1.1 p.2.1.2 p.2.2)
    some { st with
           best_fitness_history := st.best_fitness_history ++ rows }

/-- `BasePSOptimizer._next_step_and_evaluate` (lines 104–116): advance the
swarm one PSO step, decode its positions, re-encode the decoded SMILES as
the new authoritative positions, then evaluate fitness. -/
def next_step_and_evaluate (env : Env) (sfs : List SF) (c : Caches)
    (s : Swarm) (rng : Rng) : Option (Caches × Swarm × Rng) :=
  let s1 := (env.nextStep rng s).1
  let rng1 := (env.nextStep rng s).2
  let s2 := { s1 with smiles := env.embToSeq s1.x }
  let s3 := { s2 with x := env.seqToEmb s2.smiles }
  match update_fitness env sfs c s3 with
  | none => none
  | some (c', s4) => some (c', s4, rng1)

/-- The initial-evaluation loop `for swarm in self.swarms:
self.update_fitness(swarm)` shared by `BasePSOptimizer.run` (lines 168–169)
and `ParallelSwarmOptimizer.run` (lines 354–355), threading the caches. -/
def updateFitnessSwarms (env : Env) (sfs : List SF) :
    Caches → List Swarm → Option (Caches × List Swarm)
  | c, [] => some (c, [])
  | c, s :: ss =>
    match update_fitness env sfs c s with
    | none => none
    | some (c', s') =>
      match updateFitnessSwarms env sfs c' ss with
      | none => none
      | some (c'', ss') => some (c'', s' :: ss')

/-- The per-step swarm loop of `BasePSOptimizer.run` (lines 180–181):
advance and evaluate each swarm one at a time, threading the caches and the
random stream. -/
def advanceAllSeq (env : Env) (sfs : List SF) :
    Caches → List Swarm → Rng → Option (Caches × List Swarm × Rng)
  | c, [], rng => some (c, [], rng)
  | c, s :: ss, rng =>
    match next_step_and_evaluate env sfs c s rng with
    | none => none
    | some (c', s', rng') =>
      match advanceAllSeq env sfs c' ss rng' with
      | none => none
      | some (c'', ss', rng'') => some (c'', s' :: ss', rng'')

/-- The step body of `BasePSOptimizer.run` (lines 173–191): update the
history, update the best-solutions table, then advance every swarm
sequentially.  The per-step file writes are pure I/O and carry no optimizer
state. -/
def seqLoop (env : Env) (sfs : List SF) (num_track : Nat) :
    Nat → Nat → OptState → Rng → Option (OptState × Rng)
  | 0, _, st, rng => some (st, rng)
  | n + 1, step, st, rng =>
    match update_best_fitness_history step st with
    | none => none
    | some st1 =>
      match update_best_solutions num_track st1 with
      | none => none
      | some st2 =>
        match advanceAllSeq env sfs st2.caches st2.swarms rng with
        | none => none
        | some (c, ss, rng') =>
          seqLoop env sfs num_track n (step + 1)
            { st2 with caches := c, swarms := ss } rng'

/-- `BasePSOptimizer.run` (lines 158–195): evaluate the fitness of every
swarm's starting position, then run `num_steps` sequential steps.  The
output-directory creation and per-step persistence are pure I/O. -/
def seqRun (env : Env) (sfs : List SF) (num_track num_steps : Nat)
    (st : OptState) (rng : Rng) : Option (OptState × Rng) :=
  match updateFitnessSwarms env sfs st.caches st.swarms with
  | none => none
  | some (c, ss) =>
    seqLoop env sfs num_track num_steps 0
      { st with caches := c, swarms := ss } rng

/-- The first half of `ParallelSwarmOptimizer._next_step_and_evaluate`
(lines 335–337): advance every swarm's particles, collecting the new
position blocks in order while threading the random stream. -/
def mapNextStep (env : Env) : List Swarm → Rng → List Swarm × Rng
  | [], rng => ([], rng)
  | s :: ss, rng =>
    ((env.nextStep rng s).1 ::
      (mapNextStep env ss (env.nextStep rng s).2).1,
     (mapNextStep env ss (env.nextStep rng s).2).2)

/-- The second half of `ParallelSwarmOptimizer._next_step_and_evaluate`
(lines 341–344): slice the batch-decoded SMILES and re-encoded positions
back into per-swarm segments by fixed offsets `i*num_part : (i+1)*num_part`
and evaluate each swarm, threading the caches. -/
def parAssign (env : Env) (sfs : List SF) (num_part : Nat)
    (smilesAll : List Smi) (xAll : List Emb) :
    Nat → Caches → List Swarm → Option (Caches × List Swarm)
  | _, c, [] => some (c, [])
  | i, c, s :: ss =>
    match update_fitness env sfs c
        { s with
          smiles := (smilesAll.drop (i * num_part)).take num_part
          x := (xAll.drop (i * num_part)).take num_part } with
    | none => none
    | some (c', s') =>
      match parAssign env sfs num_part smilesAll xAll (i + 1) c' ss with
      | none => none
      | some (c'', ss') => some (c'', s' :: ss')

/-- `ParallelSwarmOptimizer._next_step_and_evaluate` (lines 326–344):
advance all swarms, concatenate their positions, decode and re-encode the
whole batch in single calls, then slice and evaluate per swarm.
`self.swarms[0].num_part` raises `IndexError` on an empty swarm list. -/
def parAdvance (env : Env) (sfs : List SF) (c : Caches)
    (swarms : List Swarm) (rng : Rng) :
    Option (Caches × List Swarm × Rng) :=
  match swarms.head? with
  | none => none
  | some s0 =>
    let num_part := s0.num_part
    let swarms' := (mapNextStep env swarms rng).1
    let rng' := (mapNextStep env swarms rng).2
    let emb := (swarms'.map (fun s => s.x)).flatten
    let smiles := env.embToSeq emb
    let x := env.seqToEmb smiles
    match parAssign env sfs num_part smiles x 0 c swarms' with
    | none => none
    | some (c', swarms'') => some (c', swarms'', rng')

/-- The step body of `ParallelSwarmOptimizer.run` (lines 356–361): update
the history, update the best-solutions table, then advance all swarms as one
batch. -/
def parLoop (env : Env) (sfs : List SF) (num_track : Nat) :
    Nat → Nat → OptState → Rng → Option (OptState × Rng)
  | 0, _, st, rng => some (st, rng)
  | n + 1, step, st, rng =>
    match update_best_fitness_history step st with
    | none => none
    | some st1 =>
      match update_best_solutions num_track st1 with
      | none => none
      | some st2 =>
        match parAdvance env sfs st2.caches st2.swarms rng with
        | none => none
        | some (c, ss, rng') =>
          parLoop env sfs num_track n (step + 1)
            { st2 with caches := c, swarms := ss } rng'

/-- `ParallelSwarmOptimizer.run` (lines 346–362): evaluate the fitness of
every swarm's starting position, then run `num_steps` batched steps. -/
def parRun (env : Env) (sfs : List SF) (num_track num_steps : Nat)
    (st : OptState) (rng : Rng) : Option (OptState × Rng) :=
  match updateFitnessSwarms env sfs st.caches st.swarms with
  | none => none
  | some (c, ss) =>
    parLoop env sfs num_track num_steps 0
      { st with caches := c, swarms := ss } rng

/-- One worker task of `MPPSOOptimizer.run`'s
`pool.map(self._next_step_and_evaluate, self.swarms)` (line 406): the worker
runs the base class's step-and-evaluate on a pickled copy of the optimizer
state (the swarms themselves are excluded by `__getstate__`, but the caches
are included), so its cache updates are discarded and only the mutated swarm
is returned.  Each forked worker inherits the same copy of the parent's
random state. -/
def mpWorker (env : Env) (sfs : List SF) (c : Caches) (rng : Rng)
    (s : Swarm) : Option Swarm :=
  (next_step_and_evaluate env sfs c s rng).map (fun r => r.2.1)

/-- The step body of `MPPSOOptimizer.run` (lines 405–411): advance and
evaluate every swarm in the worker pool (parent caches unchanged), then
update the best-solutions table, then the history. -/
def mpStep (env : Env) (sfs : List SF) (num_track : Nat) (rng : Rng)
    (step : Nat) (st : OptState) : Option OptState :=
  match collectSome (mpWorker env sfs st.caches rng) st.swarms with
  | none => none
  | some newSwarms =>
    match update_best_solutions num_track { st with swarms := newSwarms } with
    | none => none
    | some st1 => update_best_fitness_history step st1

/-- The early-stop test of `MPPSOOptimizer.run` (lines 412–415), written as
in the source: `(num_track == 1) & (mean == 1.)` or, in the `elif`, `mean ==
1.` alone; pandas' `NaN` mean of an empty slice compares unequal to 1. -/
def mpBreakCond (num_track : Nat) (st : OptState) : Bool :=
  (decide (num_track = 1) &&
    decide (fitnessMean (st.best_solutions.take num_track) = some 1)) ||
  decide (fitnessMean (st.best_solutions.take num_track) = some 1)

/-- The `for step in range(num_steps)` loop of `MPPSOOptimizer.run` (lines
404–415), returning the final state together with the number of executed
iterations.  Note there is no initial fitness evaluation before this loop
(the class leaves that to its separate `evaluate_query` method). -/
def mpRunAux (env : Env) (sfs : List SF) (num_track : Nat) (rng : Rng) :
    Nat → Nat → OptState → Option (OptState × Nat)
  | 0, _, st => some (st, 0)
  | n + 1, step, st =>
    match mpStep env sfs num_track rng step st with
    | none => none
    | some st₁ =>
      if mpBreakCond num_track st₁ then some (st₁, 1)
      else
        match mpRunAux env sfs num_track rng n (step + 1) st₁ with
        | none => none
        | some (stF, k) => some (stF, k + 1)

/-- `MPPSOOptimizer.run` (lines 393–417). -/
def mpRun (env : Env) (sfs : List SF) (num_track num_steps : Nat)
    (st : OptState) (rng : Rng) : Option (OptState × Nat) :=
  mpRunAux env sfs num_track rng num_steps 0 st

/-- Iterating `mpStep` a fixed number of rounds from a given step index,
ignoring the break test: the reference trajectory of the process-parallel
loop used to express when the early-stop fitness level is reached. -/
def mpIter (env : Env) (sfs : List SF) (num_track : Nat) (rng : Rng) :
    Nat → Nat → OptState → Option OptState
  | 0, _, st => some st
  | n + 1, step, st =>
    match mpStep env sfs num_track rng step st with
    | none => none
    | some st' => mpIter env sfs num_track rng n (step + 1) st'

/-- Whether the `k`-th executed round of the process-parallel loop (counting
from zero) leaves the optimizer in a state satisfying the early-stop test. -/
def mpReachesBreak (env : Env) (sfs : List SF) (num_track : Nat) (rng : Rng)
    (k : Nat) (st : OptState) : Bool :=
  match mpIter env sfs num_track rng (k + 1) 0 st with
  | none => false
  | some st' => mpBreakCond num_track st'

/-- The successive argument lists handed to the molecule-based scoring
functions over a sequence of `update_fitness` calls: at each call every
molecule-based function receives `mol_list`, the parse of the `uniq_smis`
computed from the canonicalized swarm SMILES and the current cache (lines
74–80); the caches are threaded from call to call, and a raised exception
ends the run.  The swarm arguments are arbitrary, which covers every
interleaving a run produces, since `update_fitness` is the only operation
that writes the caches. -/
def fitnessCallInputs (env : Env) (sfs : List SF) :
    Caches → List Swarm → List (List Smi)
  | _, [] => []
  | c, s :: ss =>
    uniqSmis c (s.smiles.map env.canonicalize) ::
      match update_fitness env sfs c s with
      | some (c', _) => fitnessCallInputs env sfs c' ss
      | none => []

/-- Iterated history updates, one per recorded step index, as the
optimization loops perform them. -/
def iterHist : List Nat → OptState → Option OptState
  | [], st => some st
  | k :: ks, st => (update_best_fitness_history k st).bind (iterHist ks)

/-- A molecule-based scoring function scoring every molecule with the
constant `q` and residue `res`. -/
def constMolSF (nm : String) (w q : ℚ) (res : String) : SF where
  name := nm
  weight := w
  is_mol_func := true
  call_mol := fun ms =>
    (ms.map (fun _ => q), ms.map (fun _ => q), ms.map (fun _ => q),
     ms.map (fun _ => res))
  call_emb := fun _ => ([], [], [], [])

/-- An embedding-based scoring function scoring every position with the
constant `q`. -/
def constEmbSF (nm : String) (w q : ℚ) : SF where
  name := nm
  weight := w
  is_mol_func := false
  call_mol := fun _ => ([], [], [], [])
  call_emb := fun xs =>
    (xs.map (fun _ => q), xs.map (fun _ => q), xs.map (fun _ => q),
     xs.map (fun _ => "r"))

/-- An embedding-based scoring function scoring position `5` (the starting
position of the concrete states below) with `1` and every other position
with `0`. -/
def posSF : SF where
  name := "pos"
  weight := 1
  is_mol_func := false
  call_mol := fun _ => ([], [], [], [])
  call_emb := fun xs =>
    (xs.map (fun e => if e = 5 then (1 : ℚ) else 0),
     xs.map (fun e => if e = 5 then (1 : ℚ) else 0),
     xs.map (fun e => if e = 5 then (1 : ℚ) else 0),
     xs.map (fun _ => "r"))

/-- A concrete environment: canonicalization is the identity, every
position decodes to the molecule `"B"`, every molecule re-encodes to
position `0`, and a PSO step moves the single particle to position `0`
without consuming the random stream. -/
def envB : Env where
  canonicalize := id
  molFromSmiles := fun s => some s
  embToSeq := fun l => l.map (fun _ => "B")
  seqToEmb := fun l => l.map (fun _ => 0)
  nextStep := fun rng s => ({ s with x := [0] }, rng)

/-- Empty caches. -/
def cachesEmpty : Caches :=
  { unscaled := [], scaled := [], desirability := [], residues := [] }

/-- Caches holding residues for the molecules `"A"` and `"B"`. -/
def cachesAB : Caches :=
  { unscaled := [], scaled := [], desirability := [],
    residues := [("A", "rA"), ("B", "rB")] }

/-- A one-particle swarm at position `5` holding the molecule `"A"`. -/
def swarmA : Swarm :=
  { num_part := 1, x := [5], smiles := ["A"], fitness := [],
    swarm_best_fitness := 0, best_smiles := "A",
    unscaled_scores := [], scaled_scores := [], desirability_scores := [] }

/-- A concrete optimizer state holding the single swarm `swarmA`, with the
residues of `"A"` and `"B"` already cached and an empty seed set. -/
def stAB : OptState :=
  { swarms := [swarmA], best_solutions := [], best_fitness_history := [],
    caches := cachesAB, init_smiles_set := [] }

/-- `swarmA` with an assigned fitness of `1`, for bookkeeping witnesses. -/
def swarmA1 : Swarm := { swarmA with fitness := [1] }

/-- `stAB` with the fitness of the swarm assigned. -/
def stAB1 : OptState := { stAB with swarms := [swarmA1] }

/-- Caches with the molecule `"A"` fully cached in all four dicts. -/
def cachesFull : Caches :=
  { unscaled := [("A", 9)], scaled := [("A", 9)], desirability := [("A", 9)],
    residues := [("A", "rA")] }

/-- The swarm produced by one worker step of the process-parallel loop on
`swarmA` under `envB` with the position-sensitive scoring function: the
particle moved to position `0` (scoring `0`), decoded to `"B"`, and the
swarm-local best was never set since the starting position was never
evaluated. -/
def swarmB0 : Swarm :=
  { num_part := 1, x := [0], smiles := ["B"], fitness := [0],
    swarm_best_fitness := 0, best_smiles := "A",
    unscaled_scores := [("pos", [0])], scaled_scores := [("pos", [0])],
    desirability_scores := [("pos", [0])] }

/-- The optimizer state after one full round of the process-parallel loop on
`stAB` under `envB` with the position-sensitive scoring function. -/
def stateMpB : OptState :=
  { swarms := [swarmB0], best_solutions := [⟨"B", 0, "rB"⟩],
    best_fitness_history := [⟨0, 0, 0, "A", "rA"⟩],
    caches := cachesAB, init_smiles_set := [] }

/-- The swarm produced by one worker step on `swarmA` under `envB` with the
constant-one scoring function: the decoded molecule `"B"` scores `1`. -/
def swarmB1 : Swarm :=
  { num_part := 1, x := [0], smiles := ["B"], fitness := [1],
    swarm_best_fitness := 1, best_smiles := "B",
    unscaled_scores := [("one", [1])], scaled_scores := [("one", [1])],
    desirability_scores := [("one", [1])] }

/-- The optimizer state after one full round of the process-parallel loop on
`stAB` under `envB` with the constant-one scoring function: the tracked best
solution has fitness `1`. -/
def stateMpOne : OptState :=
  { swarms := [swarmB1], best_solutions := [⟨"B", 1, "rB"⟩],
    best_fitness_history := [⟨0, 0, 1, "B", "rB"⟩],
    caches := cachesAB, init_smiles_set := [] }

/-- The length contract of the scoring-function call (spec §6): all four
output vectors have the length of the input batch. -/
def molLenContract (f : SF) : Prop :=
  ∀ ms : List (Option Mol),
    (f.call_mol ms).1.length = ms.length ∧
    (f.call_mol ms).2.1.length = ms.length ∧
    (f.call_mol ms).2.2.1.length = ms.length ∧
    (f.call_mol ms).2.2.2.length = ms.length

lemma dictGet?_insert_ne {α : Type} (k m : String) (v : α) (hne : k ≠ m) :
    ∀ d : List (String × α), dictGet? (dictInsert k v d) m = dictGet? d m := by
  intro d
  induction d with
  | nil => simp [dictInsert, dictGet?, hne]
  | cons p rest ih =>
    by_cases hk : p.1 = k
    · simp [dictInsert, dictGet?, hk, hne, ih]
    · simp only [dictInsert, hk, if_false]
      by_cases hm : p.1 = m <;> simp [dictGet?, hm, ih]

lemma dictContains_insert_of {α : Type} (k m : String) (v : α) :
    ∀ d : List (String × α), dictContains d m = true →
      dictContains (dictInsert k v d) m = true := by
  intro d
  induction d with
  | nil => simp [dictContains]
  | cons p rest ih =>
    by_cases hk : p.1 = k
    · intro h
      simp only [dictContains, Bool.or_eq_true, decide_eq_true_eq] at h
      simp only [dictInsert, hk, if_true, dictContains, Bool.or_eq_true,
        decide_eq_true_eq]
      rcases h with h | h
      · exact Or.inl (hk ▸ h)
      · exact Or.inr h
    · intro h
      simp only [dictContains, Bool.or_eq_true, decide_eq_true_eq] at h
      simp only [dictInsert, hk, if_false, dictContains, Bool.or_eq_true,
        decide_eq_true_eq]
      rcases h with h | h
      · exact Or.inl h
      · exact Or.inr (ih h)

lemma dictContains_insert_self {α : Type} (k : String) (v : α) :
    ∀ d : List (String × α), dictContains (dictInsert k v d) k = true := by
  intro d
  induction d with
  | nil => simp [dictInsert, dictContains]
  | cons p rest ih =>
    by_cases hk : p.1 = k
    · simp [dictInsert, hk, dictContains]
    · simp [dictInsert, hk, dictContains, ih]

lemma collectSome_length {α β : Type} (f : α → Option β) :
    ∀ (l : List α) (r : List β), collectSome f l = some r → r.length = l.length := by
  intro l
  induction l with
  | nil => intro r h; simp [collectSome] at h; simp [← h]
  | cons a as ih =>
    intro r h
    simp only [collectSome] at h
    cases hfa : f a with
    | none => rw [hfa] at h; exact absurd h (by simp)
    | some b =>
      rw [hfa] at h
      cases hrest : collectSome f as with
      | none => rw [hrest] at h; exact absurd h (by simp)
      | some bs =>
        rw [hrest] at h
        cases h
        simp [ih bs hrest]

lemma collectSome_nonempty_none {α β : Type} (f : α → Option β)
    (hf : ∀ a, f a = none) :
    ∀ l : List α, l ≠ [] → collectSome f l = none := by
  intro l hl
  cases l with
  | nil => exact absurd rfl hl
  | cons a as => simp [collectSome, hf a]

lemma getD_zipWith_add (u w : List ℚ) (n p : Nat)
    (hu : u.length = n) (hw : w.length = n) (hp : p < n) :
    (List.zipWith (· + ·) u w).getD p 0 = u.getD p 0 + w.getD p 0 := by
  have hz : (List.zipWith (· + ·) u w).length = n := by
    simp [List.length_zipWith, hu, hw]
  rw [List.getD_eq_getElem _ _ (by omega : p < (List.zipWith (· + ·) u w).length),
      List.getD_eq_getElem _ _ (by omega : p < u.length),
      List.getD_eq_getElem _ _ (by omega : p < w.length)]
  exact List.getElem_zipWith

lemma storeMaps_x (sw : Swarm) (nm : String) (u s d : List ℚ) :
    (storeMaps sw nm u s d).x = sw.x := rfl

/-- The scoring-function fold on a list of embedding-based functions leaves
the caches untouched, only updates the swarm's diagnostic maps, adds every
function's scaled vector to the accumulator and its weight to the sum. -/
lemma updFold_emb_spec (env : Env) (ml : List (Option Mol)) (uq : List Smi) :
    ∀ (sfs : List SF) (c : Caches) (sw : Swarm) (fit : Option (List ℚ)) (ws : ℚ),
    (∀ f ∈ sfs, f.is_mol_func = false) →
    ∃ sw', updFold env ml uq sfs c sw fit ws =
        some (c, sw',
          sfs.foldl (fun acc f => accAdd acc (f.call_emb sw.x).2.1) fit,
          ws + weightSum sfs) ∧
      sw'.x = sw.x ∧ sw'.smiles = sw.smiles ∧ sw'.fitness = sw.fitness ∧
      sw'.num_part = sw.num_part ∧
      sw'.swarm_best_fitness = sw.swarm_best_fitness ∧
      sw'.best_smiles = sw.best_smiles := by
  intro sfs
  induction sfs with
  | nil =>
    intro c sw fit ws _
    exact ⟨sw, by simp [updFold, weightSum], rfl, rfl, rfl, rfl, rfl, rfl⟩
  | cons f rest ih =>
    intro c sw fit ws h
    have hf : f.is_mol_func = false := h f (by simp)
    obtain ⟨sw', heq, hx, hsm, hfit, hnp, hbf, hbs⟩ :=
      ih c (storeMaps sw f.name (f.call_emb sw.x).1 (f.call_emb sw.x).2.1
              (f.call_emb sw.x).2.2.1)
        (accAdd fit (f.call_emb sw.x).2.1) (ws + f.weight)
        (fun g hg => h g (List.mem_cons_of_mem _ hg))
    refine ⟨sw', ?_, hx, hsm, hfit, hnp, hbf, hbs⟩
    have hws : ws + f.weight + weightSum rest = ws + weightSum (f :: rest) := by
      simp [weightSum]
      ring
    rw [show updFold env ml uq (f :: rest) c sw fit ws =
          updFold env ml uq rest c
            (storeMaps sw f.name (f.call_emb sw.x).1 (f.call_emb sw.x).2.1
              (f.call_emb sw.x).2.2.1)
            (accAdd fit (f.call_emb sw.x).2.1) (ws + f.weight) from by
        simp [updFold, hf]]
    rw [heq, ← hws]
    rfl

/-- The fitness accumulator over embedding-based functions, pointwise. -/
lemma foldl_accAdd_spec (x : List Emb) (n : Nat) :
    ∀ (sfs : List SF) (u : List ℚ), u.length = n →
    (∀ f ∈ sfs, ((f.call_emb x).2.1).length = n) →
    ∃ v, sfs.foldl (fun acc f => accAdd acc (f.call_emb x).2.1) (some u) = some v ∧
      v.length = n ∧ ∀ p, p < n → v.getD p 0 =
        u.getD p 0 + (sfs.map (fun f => ((f.call_emb x).2.1).getD p 0)).sum := by
  intro sfs
  induction sfs with
  | nil =>
    intro u hu _
    exact ⟨u, rfl, hu, fun p _ => by simp⟩
  | cons f rest ih =>
    intro u hu h
    have hfl : ((f.call_emb x).2.1).length = n := h f (by simp)
    have hzl : (List.zipWith (· + ·) u (f.call_emb x).2.1).length = n := by
      simp [List.length_zipWith, hu, hfl]
    obtain ⟨v, heq, hvl, hpt⟩ := ih (List.zipWith (· + ·) u (f.call_emb x).2.1)
      hzl (fun g hg => h g (List.mem_cons_of_mem _ hg))
    refine ⟨v, ?_, hvl, ?_⟩
    · simpa [accAdd] using heq
    · intro p hp
      rw [hpt p hp, getD_zipWith_add u _ n p hu hfl hp]
      simp [add_assoc]

lemma assignFitness_of_argmax (s : Swarm) (f : List ℚ) (i : Nat) (bf : ℚ)
    (h : argmaxQ f = some (i, bf)) (hlt : s.swarm_best_fitness < bf) :
    s.assignFitness f =
      { s with
        fitness := f
        swarm_best_fitness := bf
        best_smiles := s.smiles.getD i "" } := by
  unfold Swarm.assignFitness
  rw [h]
  simp [hlt]

lemma assignFitness_eval (s : Swarm) (q : ℚ) :
    s.assignFitness [q] =
      if s.swarm_best_fitness < q then
        { s with fitness := [q], swarm_best_fitness := q,
                 best_smiles := s.smiles.getD 0 "" }
      else { s with fitness := [q] } := by
  unfold Swarm.assignFitness
  rfl

lemma assignFitness_fitness (s : Swarm) (f : List ℚ) :
    (s.assignFitness f).fitness = f := by
  unfold Swarm.assignFitness
  cases argmaxQ f with
  | none => rfl
  | some p =>
    cases p with
    | mk i bf => by_cases h : s.swarm_best_fitness < bf <;> simp [h]

/-- C1, amended.  `update_fitness` assigns to each particle the fitness
(Σ over scoring functions of that function's scaled-score vector) divided by
(Σ of weights): the optimizer adds the scaled scores as returned, without
multiplying them by the weight (line 98 is `fitness += scaled_scores`).
Stated for embedding-based scoring functions, whose scaled vector is the
direct output of the call. -/
theorem C1_fitness_formula (env : Env) (sfs : List SF) (c : Caches)
    (sw : Swarm) (n : Nat)
    (hne : sfs ≠ [])
    (hemb : ∀ f ∈ sfs, f.is_mol_func = false)
    (hlen : ∀ f ∈ sfs, ((f.call_emb sw.x).2.1).length = n) :
    ∃ sw', update_fitness env sfs c sw = some (c, sw') ∧
      sw'.fitness.length = n ∧
      ∀ p, p < n → sw'.fitness.getD p 0 =
        (sfs.map (fun f => ((f.call_emb sw.x).2.1).getD p 0)).sum /
          weightSum sfs := by
  cases sfs with
  | nil => exact absurd rfl hne
  | cons f0 rest =>
    obtain ⟨sw2, hfold, hx2, _, _, _, _, _⟩ :=
      updFold_emb_spec env
        ((uniqSmis c (sw.smiles.map env.canonicalize)).map env.molFromSmiles)
        (uniqSmis c (sw.smiles.map env.canonicalize))
        (f0 :: rest) c { sw with smiles := sw.smiles.map env.canonicalize }
        none 0 hemb
    obtain ⟨v, hv, hvl, hvp⟩ := foldl_accAdd_spec sw.x n rest
      (f0.call_emb sw.x).2.1 (hlen f0 (by simp))
      (fun g hg => hlen g (List.mem_cons_of_mem _ hg))
    have hfold2 : (f0 :: rest).foldl
        (fun acc f => accAdd acc
          (f.call_emb ({ sw with smiles := sw.smiles.map env.canonicalize } : Swarm).x).2.1)
        none = some v := by
      show rest.foldl (fun acc f => accAdd acc (f.call_emb sw.x).2.1)
        (accAdd none (f0.call_emb sw.x).2.1) = some v
      simpa [accAdd] using hv
    rw [hfold2] at hfold
    refine ⟨sw2.assignFitness (v.map (· / (0 + weightSum (f0 :: rest)))), ?_, ?_, ?_⟩
    · show (match updFold env
          ((uniqSmis c (sw.smiles.map env.canonicalize)).map env.molFromSmiles)
          (uniqSmis c (sw.smiles.map env.canonicalize))
          (f0 :: rest) c { sw with smiles := sw.smiles.map env.canonicalize }
          none 0 with
        | none => none
        | some (c', sw', fitOpt, ws) =>
          match fitOpt with
          | none => none
          | some fv => some (c', sw'.assignFitness (fv.map (· / ws)))) =
        some (c, sw2.assignFitness (v.map (· / (0 + weightSum (f0 :: rest)))))
      rw [hfold]
    · rw [assignFitness_fitness]
      simp [hvl]
    · intro p hp
      rw [assignFitness_fitness]
      have hml : (v.map (· / (0 + weightSum (f0 :: rest)))).length = n := by
        simp [hvl]
      rw [List.getD_eq_getElem _ _ (by omega : p < (v.map (· / (0 + weightSum (f0 :: rest)))).length)]
      rw [List.getElem_map]
      rw [← List.getD_eq_getElem v 0 (by omega : p < v.length)]
      rw [hvp p hp]
      simp [add_comm]

/-- C1, counterexample to the claim as stated: two embedding-based scoring
functions with weights `1` and `3` and scaled score `1` for the particle
yield fitness `(1 + 1)/4 = 1/2`, not the claimed `(s1 + 3·s2)/4 = 1`. -/
theorem C1_counterexample :
    (update_fitness envB [constEmbSF "f1" 1 1, constEmbSF "f2" 3 1]
        cachesEmpty swarmA).map (fun p => p.2.fitness) = some [1/2] ∧
    ((1 : ℚ) + 3 * 1) / 4 ≠ 1/2 := by
  constructor
  · simp only [update_fitness, updFold, uniqSmis, dictContains, constEmbSF,
      envB, swarmA, cachesEmpty, storeMaps, accAdd, weightSum]
    norm_num [assignFitness_fitness]
  · norm_num

/-- Witness for `C1_fitness_formula` at a concrete input. -/
theorem C1_witness :
    ∃ sw', update_fitness envB [constEmbSF "f1" 1 1, constEmbSF "f2" 3 1]
        cachesEmpty swarmA = some (cachesEmpty, sw') ∧
      sw'.fitness.length = 1 ∧
      ∀ p, p < 1 → sw'.fitness.getD p 0 =
        (([constEmbSF "f1" 1 1, constEmbSF "f2" 3 1]).map
          (fun f => ((f.call_emb swarmA.x).2.1).getD p 0)).sum /
          weightSum [constEmbSF "f1" 1 1, constEmbSF "f2" 3 1] :=
  C1_fitness_formula envB [constEmbSF "f1" 1 1, constEmbSF "f2" 3 1]
    cachesEmpty swarmA 1 (by simp)
    (by intro f hf; simp only [List.mem_cons, List.mem_singleton] at hf
        rcases hf with rfl | rfl | h
        · rfl
        · rfl
        · simp at h)
    (by intro f hf; simp only [List.mem_cons, List.mem_singleton] at hf
        rcases hf with rfl | rfl | h
        · rfl
        · rfl
        · simp at h)

lemma foldl_accAdd_isSome (x : List Emb) :
    ∀ (sfs : List SF) (u : List ℚ),
    ∃ v, sfs.foldl (fun acc f => accAdd acc (f.call_emb x).2.1) (some u) = some v := by
  intro sfs
  induction sfs with
  | nil => exact fun u => ⟨u, rfl⟩
  | cons f rest ih =>
    intro u
    obtain ⟨v, hv⟩ := ih (List.zipWith (· + ·) u (f.call_emb x).2.1)
    exact ⟨v, by simpa [accAdd] using hv⟩

/-- C8, amended.  `update_fitness` performs no validation of the scoring
weight sum: with a non-empty list of scoring functions whose weights sum to
zero it completes without signalling any error (line 100 divides anyway;
numpy's array division by zero emits non-finite values silently — the only
zero-sum configuration that raises is the empty scoring-function list, where
the division is Python's integer `0 / 0`). -/
theorem C8_no_weight_validation (env : Env) (sfs : List SF) (c : Caches)
    (sw : Swarm)
    (hne : sfs ≠ [])
    (hemb : ∀ f ∈ sfs, f.is_mol_func = false)
    (hw : weightSum sfs = 0) :
    ∃ sw', update_fitness env sfs c sw = some (c, sw') := by
  cases sfs with
  | nil => exact absurd rfl hne
  | cons f0 rest =>
    obtain ⟨sw2, hfold, _, _, _, _, _, _⟩ :=
      updFold_emb_spec env
        ((uniqSmis c (sw.smiles.map env.canonicalize)).map env.molFromSmiles)
        (uniqSmis c (sw.smiles.map env.canonicalize))
        (f0 :: rest) c { sw with smiles := sw.smiles.map env.canonicalize }
        none 0 hemb
    obtain ⟨v, hv⟩ := foldl_accAdd_isSome sw.x rest (f0.call_emb sw.x).2.1
    have hfold2 : (f0 :: rest).foldl
        (fun acc f => accAdd acc
          (f.call_emb ({ sw with smiles := sw.smiles.map env.canonicalize } : Swarm).x).2.1)
        none = some v := by
      show rest.foldl (fun acc f => accAdd acc (f.call_emb sw.x).2.1)
        (accAdd none (f0.call_emb sw.x).2.1) = some v
      simpa [accAdd] using hv
    rw [hfold2] at hfold
    refine ⟨sw2.assignFitness (v.map (· / (0 + weightSum (f0 :: rest)))), ?_⟩
    show (match updFold env
        ((uniqSmis c (sw.smiles.map env.canonicalize)).map env.molFromSmiles)
        (uniqSmis c (sw.smiles.map env.canonicalize))
        (f0 :: rest) c { sw with smiles := sw.smiles.map env.canonicalize }
        none 0 with
      | none => none
      | some (c', sw', fitOpt, ws) =>
        match fitOpt with
        | none => none
        | some fv => some (c', sw'.assignFitness (fv.map (· / ws)))) =
      some (c, sw2.assignFitness (v.map (· / (0 + weightSum (f0 :: rest)))))
    rw [hfold]

/-- C8, counterexample to the claim as stated: with two scoring functions of
weights `1` and `-1` the weight sum is zero, yet `update_fitness` completes
without raising any configuration error — no fail-fast validation exists. -/
theorem C8_counterexample :
    weightSum [constEmbSF "p" 1 1, constEmbSF "q" (-1) 1] = 0 ∧
    (update_fitness envB [constEmbSF "p" 1 1, constEmbSF "q" (-1) 1]
        cachesEmpty swarmA).isSome = true := by
  constructor
  · norm_num [weightSum, constEmbSF]
  · simp only [update_fitness, updFold, uniqSmis, dictContains, constEmbSF,
      envB, swarmA, cachesEmpty, storeMaps, accAdd]
    rfl

lemma not_mem_uniqSmis_of_contains (c : Caches) (l : List Smi) (m : Smi)
    (h : dictContains c.unscaled m = true) : m ∉ uniqSmis c l := by
  intro hmem
  simp only [uniqSmis, List.mem_filter] at hmem
  rw [h] at hmem
  simp at hmem

lemma recordScores_get_preserved (m : Smi) :
    ∀ (ss : List Smi) (us scs ds : List ℚ) (rs : List String) (c : Caches),
      m ∉ ss →
      dictGet? (recordScores c ss us scs ds rs).unscaled m = dictGet? c.unscaled m ∧
      dictGet? (recordScores c ss us scs ds rs).scaled m = dictGet? c.scaled m ∧
      dictGet? (recordScores c ss us scs ds rs).desirability m = dictGet? c.desirability m ∧
      dictGet? (recordScores c ss us scs ds rs).residues m = dictGet? c.residues m := by
  intro ss
  induction ss with
  | nil => intro us scs ds rs c _; exact ⟨rfl, rfl, rfl, rfl⟩
  | cons smi tail ih =>
    intro us scs ds rs c hm
    have hm' : m ∉ tail := fun h => hm (List.mem_cons_of_mem _ h)
    have hsm : smi ≠ m := fun h => hm (h ▸ List.mem_cons_self _ _)
    cases us with
    | nil => exact ⟨rfl, rfl, rfl, rfl⟩
    | cons u us =>
      cases scs with
      | nil => exact ⟨rfl, rfl, rfl, rfl⟩
      | cons sc scs =>
        cases ds with
        | nil => exact ⟨rfl, rfl, rfl, rfl⟩
        | cons d ds =>
          cases rs with
          | nil => exact ⟨rfl, rfl, rfl, rfl⟩
          | cons r rs =>
            obtain ⟨h1, h2, h3, h4⟩ := ih us scs ds rs
              { unscaled := dictInsert smi u c.unscaled
                scaled := dictInsert smi sc c.scaled
                desirability := dictInsert smi d c.desirability
                residues := dictInsert smi r c.residues } hm'
            refine ⟨?_, ?_, ?_, ?_⟩
            · exact h1.trans (dictGet?_insert_ne smi m u hsm c.unscaled)
            · exact h2.trans (dictGet?_insert_ne smi m sc hsm c.scaled)
            · exact h3.trans (dictGet?_insert_ne smi m d hsm c.desirability)
            · exact h4.trans (dictGet?_insert_ne smi m r hsm c.residues)

lemma updFold_get_preserved (env : Env) (ml : List (Option Mol))
    (uq : List Smi) (m : Smi) (hmu : m ∉ uq) :
    ∀ (sfs : List SF) (c : Caches) (sw : Swarm) (fit : Option (List ℚ))
      (ws : ℚ) (c' : Caches) (sw' : Swarm) (fo : Option (List ℚ)) (ws' : ℚ),
      updFold env ml uq sfs c sw fit ws = some (c', sw', fo, ws') →
      dictGet? c'.unscaled m = dictGet? c.unscaled m ∧
      dictGet? c'.scaled m = dictGet? c.scaled m ∧
      dictGet? c'.desirability m = dictGet? c.desirability m ∧
      dictGet? c'.residues m = dictGet? c.residues m := by
  intro sfs
  induction sfs with
  | nil =>
    intro c sw fit ws c' sw' fo ws' h
    simp only [updFold, Option.some.injEq, Prod.mk.injEq] at h
    rw [← h.1]
    exact ⟨rfl, rfl, rfl, rfl⟩
  | cons f rest ih =>
    intro c sw fit ws c' sw' fo ws' h
    by_cases hf : f.is_mol_func
    · rcases hcall : f.call_mol ml with ⟨u, s, dr⟩
      rcases dr with ⟨d, r⟩
      simp only [updFold, hf, if_true, hcall] at h
      cases hremap : remapScores (recordScores c uq u s d r) sw.smiles with
      | none => rw [hremap] at h; exact absurd h (by simp)
      | some triple =>
        rcases triple with ⟨uv, sv, dv⟩
        rw [hremap] at h
        obtain ⟨g1, g2, g3, g4⟩ := ih _ _ _ _ _ _ _ _ h
        obtain ⟨p1, p2, p3, p4⟩ := recordScores_get_preserved m uq u s d r c hmu
        exact ⟨g1.trans p1, g2.trans p2, g3.trans p3, g4.trans p4⟩
    · rcases hcall : f.call_emb sw.x with ⟨uv, sv, dr⟩
      rcases dr with ⟨dv, rr⟩
      simp only [updFold, hf, if_false, Bool.false_eq_true, hcall] at h
      exact ih _ _ _ _ _ _ _ _ h

/-- C3, amended.  Across calls, cached entries are stable: once a molecule
holds an entry in the unscaled-score cache, a later `update_fitness` call
leaves all four of its cache entries unchanged, because cached molecules are
filtered out of `uniq_smis` before any write (line 76) — so across calls the
first write wins and nothing is raised.  (Within a single call with more
than one molecule-based scoring function, later functions do overwrite the
entries the first one just wrote — see the counterexample.) -/
theorem C3_cached_entries_stable (env : Env) (sfs : List SF) (c : Caches)
    (sw : Swarm) (m : Smi)
    (hm : dictContains c.unscaled m = true) (c' : Caches) (sw' : Swarm)
    (h : update_fitness env sfs c sw = some (c', sw')) :
    dictGet? c'.unscaled m = dictGet? c.unscaled m ∧
    dictGet? c'.scaled m = dictGet? c.scaled m ∧
    dictGet? c'.desirability m = dictGet? c.desirability m ∧
    dictGet? c'.residues m = dictGet? c.residues m := by
  have hmu : m ∉ uniqSmis c (sw.smiles.map env.canonicalize) :=
    not_mem_uniqSmis_of_contains c _ m hm
  simp only [update_fitness] at h
  cases hup : updFold env
      ((uniqSmis c (sw.smiles.map env.canonicalize)).map env.molFromSmiles)
      (uniqSmis c (sw.smiles.map env.canonicalize)) sfs c
      { sw with smiles := sw.smiles.map env.canonicalize } none 0 with
  | none => rw [hup] at h; exact absurd h (by simp)
  | some q =>
    rcases q with ⟨c₂, sw₂, fo, ws2⟩
    rw [hup] at h
    cases fo with
    | none => exact absurd h (by simp)
    | some fv =>
      simp only [Option.some.injEq, Prod.mk.injEq] at h
      obtain ⟨g1, g2, g3, g4⟩ := updFold_get_preserved env _ _ m hmu sfs c
        { sw with smiles := sw.smiles.map env.canonicalize } none 0 c₂ sw₂
        (some fv) ws2 hup
      rw [← h.1]
      exact ⟨g1, g2, g3, g4⟩

/-- C3, counterexample to the claim as stated: with two molecule-based
scoring functions, the second overwrites the cache entries the first wrote
for the same molecule inside one `update_fitness` call — the final scaled
score of `"A"` is the second function's `3/4`, not the first-written `1/2`,
so a write to an already-present key is not a no-op. -/
theorem C3_counterexample :
    (update_fitness envB
        [constMolSF "m1" 1 (1/2) "r1", constMolSF "m2" 1 (3/4) "r2"]
        cachesEmpty swarmA).map (fun p => dictGet? p.1.scaled "A") =
      some (some (3/4)) ∧
    ((3 : ℚ)/4) ≠ 1/2 := by
  constructor
  · simp only [update_fitness, updFold, uniqSmis, dictContains, constMolSF,
      envB, swarmA, cachesEmpty, storeMaps, accAdd, recordScores, remapScores,
      lookupAll, collectSome, dictGet?, dictInsert]
    norm_num
    simp [dictGet?]
  · norm_num

/-- Witness for `C3_cached_entries_stable` at a concrete input. -/
theorem C3_witness :
    dictContains cachesFull.unscaled "A" = true ∧
    (dictGet? cachesFull.unscaled "A" = dictGet? cachesFull.unscaled "A" ∧
     dictGet? cachesFull.scaled "A" = dictGet? cachesFull.scaled "A" ∧
     dictGet? cachesFull.desirability "A" = dictGet? cachesFull.desirability "A" ∧
     dictGet? cachesFull.residues "A" = dictGet? cachesFull.residues "A") :=
  ⟨rfl,
   C3_cached_entries_stable envB [constMolSF "m1" 1 (1/2) "r1"] cachesFull
     swarmA "A" rfl cachesFull
     ({ num_part := 1, x := [5], smiles := ["A"], fitness := [9],
        swarm_best_fitness := 9, best_smiles := "A",
        unscaled_scores := [("m1", [9])], scaled_scores := [("m1", [9])],
        desirability_scores := [("m1", [9])] })
     (by simp only [update_fitness, updFold, uniqSmis, dictContains,
          constMolSF, envB, swarmA, cachesFull, storeMaps, accAdd,
          recordScores, remapScores, lookupAll, collectSome, dictGet?,
          dictInsert]
         norm_num
         rw [assignFitness_of_argmax _ [(9 : ℚ)] 0 9 rfl (by norm_num)]
         rfl)⟩

lemma uniqSmis_nodup (c : Caches) (l : List Smi) : (uniqSmis c l).Nodup :=
  (List.nodup_dedup l).filter _

lemma uniqSmis_not_cached (c : Caches) (l : List Smi) (m : Smi)
    (h : m ∈ uniqSmis c l) : dictContains c.unscaled m = false := by
  have := (List.mem_filter.mp h).2
  simpa using this

lemma recordScores_contains_mono (m : Smi) :
    ∀ (ss : List Smi) (us scs ds : List ℚ) (rs : List String) (c : Caches),
      dictContains c.unscaled m = true →
      dictContains (recordScores c ss us scs ds rs).unscaled m = true := by
  intro ss
  induction ss with
  | nil => intro us scs ds rs c h; exact h
  | cons smi tail ih =>
    intro us scs ds rs c h
    cases us with
    | nil => exact h
    | cons u us =>
      cases scs with
      | nil => exact h
      | cons sc scs =>
        cases ds with
        | nil => exact h
        | cons d ds =>
          cases rs with
          | nil => exact h
          | cons r rs =>
            exact ih us scs ds rs _ (dictContains_insert_of smi m u _ h)

lemma recordScores_contains_all (m : Smi) :
    ∀ (ss : List Smi) (us scs ds : List ℚ) (rs : List String) (c : Caches),
      us.length = ss.length → scs.length = ss.length →
      ds.length = ss.length → rs.length = ss.length →
      m ∈ ss →
      dictContains (recordScores c ss us scs ds rs).unscaled m = true := by
  intro ss
  induction ss with
  | nil => intro _ _ _ _ _ _ _ _ _ hm; simp at hm
  | cons smi tail ih =>
    intro us scs ds rs c hu hsc hd hr hm
    cases us with
    | nil => simp at hu
    | cons u us =>
      cases scs with
      | nil => simp at hsc
      | cons sc scs =>
        cases ds with
        | nil => simp at hd
        | cons d ds =>
          cases rs with
          | nil => simp at hr
          | cons r rs =>
            rcases List.mem_cons.mp hm with hm | hm
            · subst hm
              exact recordScores_contains_mono m tail us scs ds rs _
                (dictContains_insert_self m u _)
            · exact ih us scs ds rs _ (by simpa using hu) (by simpa using hsc)
                (by simpa using hd) (by simpa using hr) hm

lemma updFold_contains_mono (env : Env) (ml : List (Option Mol))
    (uq : List Smi) (m : Smi) :
    ∀ (sfs : List SF) (c : Caches) (sw : Swarm) (fit : Option (List ℚ))
      (ws : ℚ) (c' : Caches) (sw' : Swarm) (fo : Option (List ℚ)) (ws' : ℚ),
      updFold env ml uq sfs c sw fit ws = some (c', sw', fo, ws') →
      dictContains c.unscaled m = true →
      dictContains c'.unscaled m = true := by
  intro sfs
  induction sfs with
  | nil =>
    intro c sw fit ws c' sw' fo ws' h hc
    simp only [updFold, Option.some.injEq, Prod.mk.injEq] at h
    rw [← h.1]
    exact hc
  | cons f rest ih =>
    intro c sw fit ws c' sw' fo ws' h hc
    by_cases hf : f.is_mol_func
    · rcases hcall : f.call_mol ml with ⟨u, s, dr⟩
      rcases dr with ⟨d, r⟩
      simp only [updFold, hf, if_true, hcall] at h
      cases hremap : remapScores (recordScores c uq u s d r) sw.smiles with
      | none => rw [hremap] at h; exact absurd h (by simp)
      | some triple =>
        rcases triple with ⟨uv, sv, dv⟩
        rw [hremap] at h
        exact ih _ _ _ _ _ _ _ _ h
          (recordScores_contains_mono m uq u s d r c hc)
    · rcases hcall : f.call_emb sw.x with ⟨uv, sv, dr⟩
      rcases dr with ⟨dv, rr⟩
      simp only [updFold, hf, if_false, Bool.false_eq_true, hcall] at h
      exact ih _ _ _ _ _ _ _ _ h hc

lemma updFold_contains_uniq (env : Env) (ml : List (Option Mol))
    (uq : List Smi) (m : Smi) (hmlen : ml.length = uq.length) (hm : m ∈ uq) :
    ∀ (sfs : List SF) (c : Caches) (sw : Swarm) (fit : Option (List ℚ))
      (ws : ℚ) (c' : Caches) (sw' : Swarm) (fo : Option (List ℚ)) (ws' : ℚ),
      (∀ f ∈ sfs, f.is_mol_func = true → molLenContract f) →
      (∃ f ∈ sfs, f.is_mol_func = true) →
      updFold env ml uq sfs c sw fit ws = some (c', sw', fo, ws') →
      dictContains c'.unscaled m = true := by
  intro sfs
  induction sfs with
  | nil =>
    intro c sw fit ws c' sw' fo ws' _ hex _
    obtain ⟨f, hf, _⟩ := hex
    simp at hf
  | cons f rest ih =>
    intro c sw fit ws c' sw' fo ws' hlen hex h
    by_cases hf : f.is_mol_func
    · rcases hcall : f.call_mol ml with ⟨u, s, dr⟩
      rcases dr with ⟨d, r⟩
      simp only [updFold, hf, if_true, hcall] at h
      cases hremap : remapScores (recordScores c uq u s d r) sw.smiles with
      | none => rw [hremap] at h; exact absurd h (by simp)
      | some triple =>
        rcases triple with ⟨uv, sv, dv⟩
        rw [hremap] at h
        have hc := hlen f (by simp) hf ml
        rw [hcall] at hc
        have hall : dictContains
            (recordScores c uq u s d r).unscaled m = true :=
          recordScores_contains_all m uq u s d r c
            (hc.1.trans hmlen) (hc.2.1.trans hmlen)
            (hc.2.2.1.trans hmlen) (hc.2.2.2.trans hmlen) hm
        exact updFold_contains_mono env ml uq m rest _ _ _ _ _ _ _ _ h hall
    · rcases hcall : f.call_emb sw.x with ⟨uv, sv, dr⟩
      rcases dr with ⟨dv, rr⟩
      simp only [updFold, hf, if_false, Bool.false_eq_true, hcall] at h
      have hex' : ∃ g ∈ rest, g.is_mol_func = true := by
        obtain ⟨g, hg, hgm⟩ := hex
        rcases List.mem_cons.mp hg with hg | hg
        · exact absurd (hg ▸ hgm) (by simpa using hf)
        · exact ⟨g, hg, hgm⟩
      exact ih _ _ _ _ _ _ _ _
        (fun g hg hgm => hlen g (List.mem_cons_of_mem _ hg) hgm) hex' h

lemma update_fitness_contains_mono (env : Env) (sfs : List SF) (c : Caches)
    (sw : Swarm) (c' : Caches) (sw' : Swarm) (m : Smi)
    (h : update_fitness env sfs c sw = some (c', sw'))
    (hc : dictContains c.unscaled m = true) :
    dictContains c'.unscaled m = true := by
  simp only [update_fitness] at h
  cases hup : updFold env
      ((uniqSmis c (sw.smiles.map env.canonicalize)).map env.molFromSmiles)
      (uniqSmis c (sw.smiles.map env.canonicalize)) sfs c
      { sw with smiles := sw.smiles.map env.canonicalize } none 0 with
  | none => rw [hup] at h; exact absurd h (by simp)
  | some q =>
    rcases q with ⟨c₂, sw₂, fo, ws2⟩
    rw [hup] at h
    cases fo with
    | none => exact absurd h (by simp)
    | some fv =>
      simp only [Option.some.injEq, Prod.mk.injEq] at h
      rw [← h.1]
      exact updFold_contains_mono env _ _ m sfs c _ none 0 c₂ sw₂
        (some fv) ws2 hup hc

lemma update_fitness_contains_uniq (env : Env) (sfs : List SF) (c : Caches)
    (sw : Swarm) (c' : Caches) (sw' : Swarm) (m : Smi)
    (hlen : ∀ f ∈ sfs, f.is_mol_func = true → molLenContract f)
    (hex : ∃ f ∈ sfs, f.is_mol_func = true)
    (h : update_fitness env sfs c sw = some (c', sw'))
    (hm : m ∈ uniqSmis c (sw.smiles.map env.canonicalize)) :
    dictContains c'.unscaled m = true := by
  simp only [update_fitness] at h
  cases hup : updFold env
      ((uniqSmis c (sw.smiles.map env.canonicalize)).map env.molFromSmiles)
      (uniqSmis c (sw.smiles.map env.canonicalize)) sfs c
      { sw with smiles := sw.smiles.map env.canonicalize } none 0 with
  | none => rw [hup] at h; exact absurd h (by simp)
  | some q =>
    rcases q with ⟨c₂, sw₂, fo, ws2⟩
    rw [hup] at h
    cases fo with
    | none => exact absurd h (by simp)
    | some fv =>
      simp only [Option.some.injEq, Prod.mk.injEq] at h
      rw [← h.1]
      exact updFold_contains_uniq env _ _ m (by simp) hm sfs c _ none 0 c₂
        sw₂ (some fv) ws2 hlen hex hup

lemma trace_zero_of_cached (env : Env) (sfs : List SF) (m : Smi) :
    ∀ (swarms : List Swarm) (c : Caches),
      dictContains c.unscaled m = true →
      ((fitnessCallInputs env sfs c swarms).map (fun l => l.count m)).sum = 0 := by
  intro swarms
  induction swarms with
  | nil => intro c _; simp [fitnessCallInputs]
  | cons s ss ih =>
    intro c hc
    have hnm : m ∉ uniqSmis c (s.smiles.map env.canonicalize) := by
      intro hmem
      rw [uniqSmis_not_cached c _ m hmem] at hc
      exact Bool.noConfusion hc
    have hcount : (uniqSmis c (s.smiles.map env.canonicalize)).count m = 0 :=
      List.count_eq_zero_of_not_mem hnm
    simp only [fitnessCallInputs]
    cases hup : update_fitness env sfs c s with
    | none => simp [hcount]
    | some pr =>
      rcases pr with ⟨c', sw'⟩
      simp only [List.map_cons, List.sum_cons, hcount]
      rw [ih c' (update_fitness_contains_mono env sfs c s c' sw' m hup hc)]

/-- C5.  Over any sequence of `update_fitness` calls threading the caches
(which covers every interleaving of a run, `update_fitness` being the only
writer of the caches), each molecule appears at most once in the totality of
the argument batches handed to the molecule-based scoring functions: within
a call the batch is deduplicated, and a scored molecule enters the
unscaled-score cache, excluding it from every later batch.  Assumes at least
one molecule-based function is configured (otherwise no molecule-based
function is ever invoked at all) and the spec §6 length contract on scoring
outputs. -/
theorem C5_scored_at_most_once (env : Env) (sfs : List SF)
    (swarms : List Swarm) (c : Caches) (m : Smi)
    (hlen : ∀ f ∈ sfs, f.is_mol_func = true → molLenContract f)
    (hex : ∃ f ∈ sfs, f.is_mol_func = true) :
    ((fitnessCallInputs env sfs c swarms).map (fun l => l.count m)).sum ≤ 1 := by
  induction swarms generalizing c with
  | nil => simp [fitnessCallInputs]
  | cons s ss ih =>
    have hu1 : (uniqSmis c (s.smiles.map env.canonicalize)).count m ≤ 1 :=
      List.nodup_iff_count_le_one.mp (uniqSmis_nodup c _) m
    simp only [fitnessCallInputs]
    cases hup : update_fitness env sfs c s with
    | none => simpa using hu1
    | some pr =>
      rcases pr with ⟨c', sw'⟩
      simp only [List.map_cons, List.sum_cons]
      by_cases hm : m ∈ uniqSmis c (s.smiles.map env.canonicalize)
      · have hc' : dictContains c'.unscaled m = true :=
          update_fitness_contains_uniq env sfs c s c' sw' m hlen hex hup hm
        rw [trace_zero_of_cached env sfs m ss c' hc']
        simpa using hu1
      · rw [List.count_eq_zero_of_not_mem hm]
        simpa using ih c'

/-- Witness for `C5_scored_at_most_once` at a concrete input. -/
theorem C5_witness :
    ((fitnessCallInputs envB [constMolSF "m1" 1 1 "r"] cachesEmpty
        [swarmA, swarmA]).map (fun l => l.count "A")).sum ≤ 1 :=
  C5_scored_at_most_once envB [constMolSF "m1" 1 1 "r"] [swarmA, swarmA]
    cachesEmpty "A"
    (by intro f hf _
        simp only [List.mem_singleton] at hf
        subst hf
        intro ms
        simp [constMolSF])
    ⟨constMolSF "m1" 1 1 "r", by simp, rfl⟩

lemma hist_step_spec (st : OptState) (step : Nat) (st' : OptState)
    (h : update_best_fitness_history step st = some st') :
    st'.best_fitness_history.length =
      st.best_fitness_history.length + st.swarms.length ∧
    (∃ rows, st'.best_fitness_history = st.best_fitness_history ++ rows) ∧
    st'.swarms = st.swarms := by
  unfold update_best_fitness_history at h
  cases hlk : lookupAll st.caches.residues
      (st.swarms.map (fun s => s.best_smiles)) with
  | none => rw [hlk] at h; exact Option.noConfusion h
  | some res =>
    rw [hlk] at h
    have hres : res.length = st.swarms.length := by
      have := collectSome_length _ _ _ hlk
      simpa using this
    have h2 : st' =
        { st with best_fitness_history := st.best_fitness_history ++
            (((List.range st.swarms.length).zip
              (((st.swarms.map (fun s => s.swarm_best_fitness)).zip
                (st.swarms.map (fun s => s.best_smiles))).zip res)).map
              (fun p => HistRow.mk step p.1 p.2.1.1 p.2.1.2 p.2.2)) } :=
      (Option.some.inj h).symm
    subst h2
    refine ⟨?_, ⟨_, rfl⟩, rfl⟩
    simp [List.length_zip, hres]

/-- C9.  Each `_update_best_fitness_history` call appends exactly one row
per swarm to the history, never removing existing rows, and leaves the
swarms unchanged; consequently iterating it over any list of step indices
grows the history by exactly (number of calls) × (number of swarms) rows. -/
theorem C9_history_growth :
    (∀ (st : OptState) (step : Nat) (st' : OptState),
      update_best_fitness_history step st = some st' →
      st'.best_fitness_history.length =
        st.best_fitness_history.length + st.swarms.length ∧
      (∃ rows, st'.best_fitness_history = st.best_fitness_history ++ rows) ∧
      st'.swarms = st.swarms) ∧
    (∀ (steps : List Nat) (st st₂ : OptState), iterHist steps st = some st₂ →
      st₂.best_fitness_history.length =
        st.best_fitness_history.length + steps.length * st.swarms.length) := by
  refine ⟨fun st step st' h => hist_step_spec st step st' h, ?_⟩
  intro steps
  induction steps with
  | nil =>
    intro st st₂ h
    have h2 : st = st₂ := Option.some.inj h
    subst h2
    simp
  | cons k ks ih =>
    intro st st₂ h
    unfold iterHist at h
    cases hstep : update_best_fitness_history k st with
    | none => rw [hstep] at h; exact Option.noConfusion h
    | some st1 =>
      rw [hstep] at h
      obtain ⟨hlen, _, hsw⟩ := hist_step_spec st k st1 hstep
      have hrec := ih st1 st₂ h
      rw [hrec, hlen, hsw]
      simp [List.length_cons]
      ring

/-- Witness for `C9_history_growth` at a concrete input. -/
theorem C9_witness :
    update_best_fitness_history 0 stAB =
      some { stAB with best_fitness_history := [⟨0, 0, 0, "A", "rA"⟩] } ∧
    (({ stAB with best_fitness_history := [⟨0, 0, 0, "A", "rA"⟩] } :
        OptState)).best_fitness_history.length =
      stAB.best_fitness_history.length + stAB.swarms.length := by
  have heq : update_best_fitness_history 0 stAB =
      some { stAB with best_fitness_history := [⟨0, 0, 0, "A", "rA"⟩] } := by
    simp only [update_best_fitness_history, lookupAll, collectSome, dictGet?,
      stAB, swarmA, cachesAB]
    norm_num [List.range_succ]
  exact ⟨heq, (C9_history_growth.1 stAB 0 _ heq).1⟩

/-- C10.  If no scoring function is molecule-based, `update_fitness` leaves
the caches — in particular the residues cache — completely untouched (the
embedding branch at lines 92–93 discards residues), and any subsequent
best-solutions or best-fitness-history update raises `KeyError` on the
residues lookup of any molecule: with an empty residues cache,
`_update_best_solutions` fails whenever some swarm holds a molecule and
`_update_best_fitness_history` fails whenever there is a swarm. -/
theorem C10_no_residues :
    (∀ (env : Env) (sfs : List SF) (c : Caches) (sw : Swarm) (c' : Caches)
      (sw' : Swarm), (∀ f ∈ sfs, f.is_mol_func = false) →
      update_fitness env sfs c sw = some (c', sw') → c' = c) ∧
    (∀ (st : OptState) (nt : Nat), st.caches.residues = [] →
      (∃ s ∈ st.swarms, s.smiles ≠ []) → update_best_solutions nt st = none) ∧
    (∀ (st : OptState) (step : Nat), st.caches.residues = [] →
      st.swarms ≠ [] → update_best_fitness_history step st = none) := by
  refine ⟨?_, ?_, ?_⟩
  · intro env sfs c sw c' sw' hemb h
    obtain ⟨sw2, hfold, _, _, _, _, _, _⟩ :=
      updFold_emb_spec env
        ((uniqSmis c (sw.smiles.map env.canonicalize)).map env.molFromSmiles)
        (uniqSmis c (sw.smiles.map env.canonicalize))
        sfs c { sw with smiles := sw.smiles.map env.canonicalize } none 0 hemb
    simp only [update_fitness] at h
    rw [hfold] at h
    cases hfo : sfs.foldl
        (fun acc f => accAdd acc
          (f.call_emb ({ sw with smiles := sw.smiles.map env.canonicalize } : Swarm).x).2.1)
        none with
    | none => rw [hfo] at h; exact absurd h (by simp)
    | some fv =>
      rw [hfo] at h
      simp only [Option.some.injEq, Prod.mk.injEq] at h
      exact h.1.symm
  · intro st nt hres hex
    obtain ⟨s, hs, hne⟩ := hex
    have hnil : st.swarms.flatMap (fun s => s.smiles) ≠ [] := by
      obtain ⟨m, hm⟩ := List.exists_mem_of_ne_nil s.smiles hne
      exact List.ne_nil_of_mem (List.mem_flatMap.mpr ⟨s, hs, hm⟩)
    have hlk : lookupAll st.caches.residues
        (st.swarms.flatMap (fun s => s.smiles)) = none := by
      rw [hres]
      exact collectSome_nonempty_none _ (fun k => rfl) _ hnil
    simp [update_best_solutions, hlk]
  · intro st step hres hsw
    have hnil : st.swarms.map (fun s => s.best_smiles) ≠ [] := by
      intro h
      exact hsw (List.map_eq_nil_iff.mp h)
    have hlk : lookupAll st.caches.residues
        (st.swarms.map (fun s => s.best_smiles)) = none := by
      rw [hres]
      exact collectSome_nonempty_none _ (fun k => rfl) _ hnil
    simp [update_best_fitness_history, hlk]

/-- Witness for `C10_no_residues` at a concrete input. -/
theorem C10_witness :
    update_best_solutions 5 { stAB with caches := cachesEmpty } = none ∧
    update_best_fitness_history 0 { stAB with caches := cachesEmpty } = none :=
  ⟨C10_no_residues.2.1 _ 5 rfl ⟨swarmA, by simp [stAB], by simp [swarmA]⟩,
   C10_no_residues.2.2 _ 0 rfl (by simp [stAB])⟩

lemma dropDupSmiles_subset :
    ∀ (seen : List Smi) (l : List BestRow) (r : BestRow),
      r ∈ dropDupSmiles seen l → r ∈ l := by
  intro seen l
  induction l generalizing seen with
  | nil => intro r h; simp [dropDupSmiles] at h
  | cons a tl ih =>
    intro r h
    simp only [dropDupSmiles] at h
    by_cases ha : a.smiles ∈ seen
    · rw [if_pos ha] at h
      exact List.mem_cons_of_mem _ (ih seen r h)
    · rw [if_neg ha] at h
      rcases List.mem_cons.mp h with h | h
      · subst h
        exact List.mem_cons_self _ _
      · exact List.mem_cons_of_mem _ (ih _ r h)

lemma dropDupSmiles_not_seen :
    ∀ (seen : List Smi) (l : List BestRow) (r : BestRow),
      r ∈ dropDupSmiles seen l → r.smiles ∉ seen := by
  intro seen l
  induction l generalizing seen with
  | nil => intro r h; simp [dropDupSmiles] at h
  | cons a tl ih =>
    intro r h
    simp only [dropDupSmiles] at h
    by_cases ha : a.smiles ∈ seen
    · rw [if_pos ha] at h
      exact ih seen r h
    · rw [if_neg ha] at h
      rcases List.mem_cons.mp h with h | h
      · subst h
        exact ha
      · intro hr
        exact ih _ r h (List.mem_cons_of_mem _ hr)

lemma dropDupSmiles_nodup :
    ∀ (seen : List Smi) (l : List BestRow),
      ((dropDupSmiles seen l).map BestRow.smiles).Nodup := by
  intro seen l
  induction l generalizing seen with
  | nil => simp [dropDupSmiles]
  | cons a tl ih =>
    simp only [dropDupSmiles]
    by_cases ha : a.smiles ∈ seen
    · rw [if_pos ha]
      exact ih seen
    · rw [if_neg ha]
      simp only [List.map_cons, List.nodup_cons]
      refine ⟨?_, ih _⟩
      intro hmem
      obtain ⟨r, hr, hrs⟩ := List.mem_map.mp hmem
      exact dropDupSmiles_not_seen _ _ r hr (hrs ▸ List.mem_cons_self _ _)

/-- C4.  After any `_update_best_solutions` call on a state whose previous
table contains no seed molecule (true initially, since the table starts
empty, and preserved by this very statement), the resulting table satisfies
all four invariants: at most `num_track` rows, no duplicate molecules,
non-increasing fitness, and no seed molecule. -/
theorem C4_best_table_invariants (st : OptState) (nt : Nat) (st' : OptState)
    (hseed : ∀ r ∈ st.best_solutions, r.smiles ∉ st.init_smiles_set)
    (h : update_best_solutions nt st = some st') :
    st'.best_solutions.length ≤ nt ∧
    (st'.best_solutions.map BestRow.smiles).Nodup ∧
    st'.best_solutions.Pairwise fitGe ∧
    ∀ r ∈ st'.best_solutions, r.smiles ∉ st.init_smiles_set := by
  unfold update_best_solutions at h
  cases hlk : lookupAll st.caches.residues
      (st.swarms.flatMap (fun s => s.smiles)) with
  | none => rw [hlk] at h; exact Option.noConfusion h
  | some res =>
    rw [hlk] at h
    have h2 : st' =
        { st with best_solutions :=
            ((dropDupSmiles []
              (st.best_solutions ++
                ((((st.swarms.flatMap (fun s => s.smiles)).zip
                  ((st.swarms.flatMap (fun s => s.fitness)).zip res)).map
                  (fun p => BestRow.mk p.1 p.2.1 p.2.2)).filter
                  (fun r => !(st.init_smiles_set.contains r.smiles))))).insertionSort
                fitGe).take nt } := (Option.some.inj h).symm
    subst h2
    set rows := (((st.swarms.flatMap (fun s => s.smiles)).zip
        ((st.swarms.flatMap (fun s => s.fitness)).zip res)).map
        (fun p => BestRow.mk p.1 p.2.1 p.2.2)).filter
        (fun r => !(st.init_smiles_set.contains r.smiles)) with hrows
    set merged := dropDupSmiles [] (st.best_solutions ++ rows) with hmerged
    set sorted := merged.insertionSort fitGe with hsorted
    have hperm : sorted.Perm merged := List.perm_insertionSort fitGe merged
    refine ⟨?_, ?_, ?_, ?_⟩
    · simp only []
      exact le_trans (le_of_eq (congrArg List.length rfl))
        (List.length_take_le nt sorted)
    · have hnd : (merged.map BestRow.smiles).Nodup := dropDupSmiles_nodup [] _
      have hnd' : (sorted.map BestRow.smiles).Nodup :=
        ((hperm.map BestRow.smiles).nodup_iff).mpr hnd
      show ((sorted.take nt).map BestRow.smiles).Nodup
      rw [List.map_take]
      exact hnd'.sublist (List.take_sublist nt _)
    · exact (List.sorted_insertionSort fitGe merged).sublist
        (List.take_sublist nt sorted)
    · intro r hr
      have hrm : r ∈ merged := hperm.mem_iff.mp (List.take_subset nt sorted hr)
      have hrm' : r ∈ st.best_solutions ++ rows := dropDupSmiles_subset [] _ r hrm
      rcases List.mem_append.mp hrm' with hprev | hnew
      · exact hseed r hprev
      · have := (List.mem_filter.mp hnew).2
        intro hcontra
        rw [Bool.not_eq_eq_eq_not, Bool.not_true] at this
        exact absurd (List.elem_iff.mpr hcontra) (by simpa using this)

/-- Witness for `C4_best_table_invariants` at a concrete input. -/
theorem C4_witness :
    update_best_solutions 5 stAB1 =
      some { stAB1 with
             best_solutions := [{ smiles := "A", fitness := 1, residues := "rA" }] } ∧
    ([({ smiles := "A", fitness := 1, residues := "rA" } : BestRow)].length ≤ 5 ∧
     ([({ smiles := "A", fitness := 1, residues := "rA" } : BestRow)].map BestRow.smiles).Nodup ∧
     List.Pairwise fitGe [({ smiles := "A", fitness := 1, residues := "rA" } : BestRow)] ∧
     ∀ r ∈ [({ smiles := "A", fitness := 1, residues := "rA" } : BestRow)],
       r.smiles ∉ stAB1.init_smiles_set) := by
  have heq : update_best_solutions 5 stAB1 =
      some { stAB1 with
             best_solutions := [{ smiles := "A", fitness := 1, residues := "rA" }] } := by
    simp only [update_best_solutions, lookupAll, collectSome, dictGet?, stAB1,
      stAB, swarmA1, swarmA, cachesAB, dropDupSmiles, List.insertionSort]
    norm_num [List.orderedInsert]
  have hmain := C4_best_table_invariants stAB1 5 _ (by simp [stAB1, stAB]) heq
  exact ⟨heq, hmain⟩

/-- C2, amended.  The sequential and batched strategies evaluate the fitness
of every swarm's starting position before the first step (even with zero
steps they perform exactly the initial evaluation); the process-parallel
strategy performs no initial evaluation at all — its loop immediately
advances the swarms, and the class leaves initial evaluation to the
separate `evaluate_query` method. -/
theorem C2_initial_evaluation (env : Env) (sfs : List SF) (nt : Nat)
    (st : OptState) (rng : Rng) :
    seqRun env sfs nt 0 st rng =
      (match updateFitnessSwarms env sfs st.caches st.swarms with
       | none => none
       | some (c, ss) => some ({ st with caches := c, swarms := ss }, rng)) ∧
    parRun env sfs nt 0 st rng =
      (match updateFitnessSwarms env sfs st.caches st.swarms with
       | none => none
       | some (c, ss) => some ({ st with caches := c, swarms := ss }, rng)) ∧
    mpRun env sfs nt 0 st rng = some (st, 0) := by
  refine ⟨?_, ?_, rfl⟩
  · unfold seqRun
    cases updateFitnessSwarms env sfs st.caches st.swarms with
    | none => rfl
    | some p => rcases p with ⟨c, ss⟩; rfl
  · unfold parRun
    cases updateFitnessSwarms env sfs st.caches st.swarms with
    | none => rfl
    | some p => rcases p with ⟨c, ss⟩; rfl

/-- C2, counterexample to the claim as stated: under `envB` with the
position-sensitive scoring function the starting position of `swarmA`
scores `1` (third conjunct: evaluating the start assigns fitness `[1]` and
best `1`), yet after one round of the process-parallel loop the swarm-local
best fitness is `0` — `MPPSOOptimizer.run` advanced the swarm without ever
evaluating the starting position. -/
theorem C2_counterexample :
    mpRun envB [posSF] 500 1 stAB [] = some (stateMpB, 1) ∧
    stateMpB.swarms.map (fun s => s.swarm_best_fitness) = [0] ∧
    (update_fitness envB [posSF] stAB.caches swarmA).map
      (fun p => (p.2.fitness, p.2.swarm_best_fitness)) = some ([1], 1) := by
  have hW : next_step_and_evaluate envB [posSF] stAB.caches swarmA [] =
      some (stAB.caches, swarmB0, []) := by
    simp only [next_step_and_evaluate, update_fitness, updFold, uniqSmis,
      dictContains, posSF, envB, swarmA, stAB, cachesAB, storeMaps, accAdd,
      assignFitness_eval, swarmB0, String.reduceEq, if_false, if_true]
    norm_num [assignFitness_eval, dictInsert, String.reduceEq, if_false,
      if_true]
  have h1 : collectSome (mpWorker envB [posSF] stAB.caches []) stAB.swarms =
      some [swarmB0] := by
    show collectSome (mpWorker envB [posSF] stAB.caches []) [swarmA] =
      some [swarmB0]
    simp only [collectSome, mpWorker, hW, Option.map]
  have h2 : update_best_solutions 500 { stAB with swarms := [swarmB0] } =
      some { stateMpB with best_fitness_history := [] } := by
    simp only [update_best_solutions, lookupAll, collectSome, dictGet?, stAB,
      swarmB0, cachesAB, dropDupSmiles, List.insertionSort,
      List.orderedInsert, fitGe, stateMpB, String.reduceEq, if_false, if_true]
    norm_num
  have h3 : update_best_fitness_history 0
      { stateMpB with best_fitness_history := [] } = some stateMpB := by
    simp only [update_best_fitness_history, lookupAll, collectSome, dictGet?,
      stateMpB, swarmB0, cachesAB, String.reduceEq, if_false, if_true]
    norm_num [List.range_succ]
  have hStep : mpStep envB [posSF] 500 [] 0 stAB = some stateMpB := by
    simp only [mpStep, h1, h2, h3]
  have hBreak : mpBreakCond 500 stateMpB = false := by
    simp only [mpBreakCond, stateMpB, fitnessMean]
    norm_num [List.take]
  refine ⟨?_, by norm_num [stateMpB, swarmB0], ?_⟩
  · show mpRunAux envB [posSF] 500 [] 1 0 stAB = some (stateMpB, 1)
    simp only [mpRunAux, hStep, hBreak, Bool.false_eq_true, if_false]
  · simp only [update_fitness, updFold, uniqSmis, dictContains, posSF, envB,
      swarmA, stAB, cachesAB, storeMaps, accAdd, assignFitness_eval,
      String.reduceEq, if_false, if_true]
    norm_num [assignFitness_eval, dictInsert, String.reduceEq, if_false,
      if_true]

lemma mpRun_break_early (env : Env) (sfs : List SF) (nt : Nat) (rng : Rng) :
    ∀ (k n step : Nat) (st st' : OptState),
      mpIter env sfs nt rng (k + 1) step st = some st' →
      mpBreakCond nt st' = true →
      k + 1 ≤ n →
      ∃ stF e, mpRunAux env sfs nt rng n step st = some (stF, e) ∧
        e ≤ k + 1 := by
  intro k
  induction k with
  | zero =>
    intro n step st st' hiter hbreak hn
    simp only [mpIter] at hiter
    cases hstep : mpStep env sfs nt rng step st with
    | none => rw [hstep] at hiter; exact Option.noConfusion hiter
    | some st₁ =>
      rw [hstep] at hiter
      have h1 : st₁ = st' := Option.some.inj hiter
      subst h1
      obtain ⟨n', rfl⟩ : ∃ n', n = n' + 1 := ⟨n - 1, by omega⟩
      refine ⟨st₁, 1, ?_, le_refl 1⟩
      simp only [mpRunAux, hstep, hbreak, if_true]
  | succ k ih =>
    intro n step st st' hiter hbreak hn
    simp only [mpIter] at hiter
    cases hstep : mpStep env sfs nt rng step st with
    | none => rw [hstep] at hiter; exact Option.noConfusion hiter
    | some st₁ =>
      rw [hstep] at hiter
      obtain ⟨n', rfl⟩ : ∃ n', n = n' + 1 := ⟨n - 1, by omega⟩
      by_cases hb : mpBreakCond nt st₁ = true
      · exact ⟨st₁, 1, by simp only [mpRunAux, hstep, hb, if_true], by omega⟩
      · obtain ⟨stF, e, hrec, he⟩ := ih n' (step + 1) st₁ st' hiter hbreak
          (by omega)
        refine ⟨stF, e + 1, ?_, by omega⟩
        simp only [mpRunAux, hstep]
        rw [if_neg hb, hrec]

/-- C7.  If, with `num_track = 1`, the tracked best solution's mean fitness
reaches `1` after some executed round `k` with at least one round of
`num_steps` still remaining, then `MPPSOOptimizer.run` stops early: it
returns after strictly fewer than `num_steps` executed iterations. -/
theorem C7_early_stop (env : Env) (sfs : List SF) (nt : Nat) (rng : Rng)
    (num_steps k : Nat) (st : OptState)
    (_hnt : nt = 1)
    (hreach : mpReachesBreak env sfs nt rng k st = true)
    (hk : k + 1 < num_steps) :
    ∃ stF e, mpRun env sfs nt num_steps st rng = some (stF, e) ∧
      e < num_steps := by
  unfold mpReachesBreak at hreach
  cases hiter : mpIter env sfs nt rng (k + 1) 0 st with
  | none => rw [hiter] at hreach; exact Bool.noConfusion hreach
  | some st' =>
    rw [hiter] at hreach
    obtain ⟨stF, e, hrun, he⟩ := mpRun_break_early env sfs nt rng k num_steps
      0 st st' hiter hreach (by omega)
    exact ⟨stF, e, hrun, by omega⟩

/-- Witness for `C7_early_stop` at a concrete input: fitness `1` is reached
in the first round and the loop executes one of three steps. -/
theorem C7_witness :
    ∃ stF e, mpRun envB [constEmbSF "one" 1 1] 1 3 stAB [] = some (stF, e) ∧
      e < 3 := by
  have hW : next_step_and_evaluate envB [constEmbSF "one" 1 1] stAB.caches
      swarmA [] = some (stAB.caches, swarmB1, []) := by
    simp only [next_step_and_evaluate, update_fitness, updFold, uniqSmis,
      dictContains, constEmbSF, envB, swarmA, stAB, cachesAB, storeMaps,
      accAdd, assignFitness_eval, swarmB1, String.reduceEq, if_false, if_true]
    norm_num [assignFitness_eval, dictInsert, String.reduceEq, if_false,
      if_true]
  have h1 : collectSome (mpWorker envB [constEmbSF "one" 1 1] stAB.caches [])
      stAB.swarms = some [swarmB1] := by
    show collectSome (mpWorker envB [constEmbSF "one" 1 1] stAB.caches [])
      [swarmA] = some [swarmB1]
    simp only [collectSome, mpWorker, hW, Option.map]
  have h2 : update_best_solutions 1 { stAB with swarms := [swarmB1] } =
      some { stateMpOne with best_fitness_history := [] } := by
    simp only [update_best_solutions, lookupAll, collectSome, dictGet?, stAB,
      swarmB1, cachesAB, dropDupSmiles, List.insertionSort,
      List.orderedInsert, fitGe, stateMpOne, String.reduceEq, if_false,
      if_true]
    norm_num [List.take]
  have h3 : update_best_fitness_history 0
      { stateMpOne with best_fitness_history := [] } = some stateMpOne := by
    simp only [update_best_fitness_history, lookupAll, collectSome, dictGet?,
      stateMpOne, swarmB1, cachesAB, String.reduceEq, if_false, if_true]
    norm_num [List.range_succ]
  have hStep : mpStep envB [constEmbSF "one" 1 1] 1 [] 0 stAB =
      some stateMpOne := by
    simp only [mpStep, h1, h2, h3]
  have hBreak : mpBreakCond 1 stateMpOne = true := by
    simp only [mpBreakCond, stateMpOne, fitnessMean]
    norm_num [List.take]
  exact C7_early_stop envB [constEmbSF "one" 1 1] 1 [] 3 0 stAB rfl
    (by simp only [mpReachesBreak, mpIter, hStep, hBreak]) (by omega)

/-- Witness for `C8_no_weight_validation` at a concrete input. -/
theorem C8_witness :
    ∃ sw', update_fitness envB [constEmbSF "p" 1 1, constEmbSF "q" (-1) 1]
        cachesEmpty swarmA = some (cachesEmpty, sw') :=
  C8_no_weight_validation envB [constEmbSF "p" 1 1, constEmbSF "q" (-1) 1]
    cachesEmpty swarmA (by simp)
    (by intro f hf; simp only [List.mem_cons, List.mem_singleton] at hf
        rcases hf with rfl | rfl | h
        · rfl
        · rfl
        · simp at h)
    (by norm_num [weightSum, constEmbSF])

lemma assignFitness_num_part (s : Swarm) (f : List ℚ) :
    (s.assignFitness f).num_part = s.num_part := by
  unfold Swarm.assignFitness
  cases argmaxQ f with
  | none => rfl
  | some p =>
    cases p with
    | mk i bf => by_cases h : s.swarm_best_fitness < bf <;> simp [h]

lemma updFold_num_part (env : Env) (ml : List (Option Mol)) (uq : List Smi) :
    ∀ (sfs : List SF) (c : Caches) (sw : Swarm) (fit : Option (List ℚ))
      (ws : ℚ) (c' : Caches) (sw' : Swarm) (fo : Option (List ℚ)) (ws' : ℚ),
      updFold env ml uq sfs c sw fit ws = some (c', sw', fo, ws') →
      sw'.num_part = sw.num_part := by
  intro sfs
  induction sfs with
  | nil =>
    intro c sw fit ws c' sw' fo ws' h
    simp only [updFold, Option.some.injEq, Prod.mk.injEq] at h
    rw [← h.2.1]
  | cons f rest ih =>
    intro c sw fit ws c' sw' fo ws' h
    by_cases hf : f.is_mol_func
    · rcases hcall : f.call_mol ml with ⟨u, s, dr⟩
      rcases dr with ⟨d, r⟩
      simp only [updFold, hf, if_true, hcall] at h
      cases hremap : remapScores (recordScores c uq u s d r) sw.smiles with
      | none => rw [hremap] at h; exact absurd h (by simp)
      | some triple =>
        rcases triple with ⟨uv, sv, dv⟩
        rw [hremap] at h
        have h' : updFold env ml uq rest (recordScores c uq u s d r)
            (storeMaps sw f.name uv sv dv) (accAdd fit sv) (ws + f.weight) =
            some (c', sw', fo, ws') := h
        have := ih (recordScores c uq u s d r)
          (storeMaps sw f.name uv sv dv) (accAdd fit sv) (ws + f.weight)
          c' sw' fo ws' h'
        simpa [storeMaps] using this
    · rcases hcall : f.call_emb sw.x with ⟨uv, sv, dr⟩
      rcases dr with ⟨dv, rr⟩
      simp only [updFold, hf, if_false, Bool.false_eq_true, hcall] at h
      have := ih c (storeMaps sw f.name uv sv dv) (accAdd fit sv)
        (ws + f.weight) c' sw' fo ws' h
      simpa [storeMaps] using this

lemma update_fitness_num_part (env : Env) (sfs : List SF) (c : Caches)
    (sw : Swarm) (c' : Caches) (sw' : Swarm)
    (h : update_fitness env sfs c sw = some (c', sw')) :
    sw'.num_part = sw.num_part := by
  simp only [update_fitness] at h
  cases hup : updFold env
      ((uniqSmis c (sw.smiles.map env.canonicalize)).map env.molFromSmiles)
      (uniqSmis c (sw.smiles.map env.canonicalize)) sfs c
      { sw with smiles := sw.smiles.map env.canonicalize } none 0 with
  | none => rw [hup] at h; exact absurd h (by simp)
  | some q =>
    rcases q with ⟨c₂, sw₂, fo, ws2⟩
    rw [hup] at h
    cases fo with
    | none => exact absurd h (by simp)
    | some fv =>
      simp only [Option.some.injEq, Prod.mk.injEq] at h
      rw [← h.2]
      rw [assignFitness_num_part]
      have := updFold_num_part env _ _ sfs c
        { sw with smiles := sw.smiles.map env.canonicalize } none 0 c₂ sw₂
        (some fv) ws2 hup
      simpa using this

lemma updateFitnessSwarms_num_part (env : Env) (sfs : List SF) :
    ∀ (ss : List Swarm) (c : Caches) (c' : Caches) (ss' : List Swarm),
      updateFitnessSwarms env sfs c ss = some (c', ss') →
      ss'.map Swarm.num_part = ss.map Swarm.num_part := by
  intro ss
  induction ss with
  | nil =>
    intro c c' ss' h
    simp only [updateFitnessSwarms, Option.some.injEq, Prod.mk.injEq] at h
    rw [← h.2]
  | cons s tl ih =>
    intro c c' ss' h
    simp only [updateFitnessSwarms] at h
    cases h1 : update_fitness env sfs c s with
    | none => rw [h1] at h; exact Option.noConfusion h
    | some p =>
      rcases p with ⟨c₁, s₁⟩
      rw [h1] at h
      have h' : (match updateFitnessSwarms env sfs c₁ tl with
          | none => none
          | some (c'', ss'') => some (c'', s₁ :: ss'')) = some (c', ss') := h
      cases h2 : updateFitnessSwarms env sfs c₁ tl with
      | none => rw [h2] at h'; exact Option.noConfusion h'
      | some q =>
        rcases q with ⟨c₂, tl₂⟩
        rw [h2] at h'
        have h4 := Option.some.inj h'
        have h3 : ss' = s₁ :: tl₂ := (congrArg Prod.snd h4).symm
        subst h3
        simp only [List.map_cons]
        rw [update_fitness_num_part env sfs c s c₁ s₁ h1, ih c₁ c₂ tl₂ h2]

lemma best_solutions_swarms (nt : Nat) (st st' : OptState)
    (h : update_best_solutions nt st = some st') : st'.swarms = st.swarms := by
  unfold update_best_solutions at h
  cases hlk : lookupAll st.caches.residues
      (st.swarms.flatMap (fun s => s.smiles)) with
  | none => rw [hlk] at h; exact Option.noConfusion h
  | some res =>
    rw [hlk] at h
    have h2 := (Option.some.inj h).symm
    subst h2
    rfl

lemma next_step_and_evaluate_num_part (env : Env) (sfs : List SF)
    (c : Caches) (s : Swarm) (rng : Rng) (c' : Caches) (s' : Swarm)
    (rng' : Rng)
    (hnum : ∀ (r : Rng) (t : Swarm), ((env.nextStep r t).1).num_part = t.num_part)
    (h : next_step_and_evaluate env sfs c s rng = some (c', s', rng')) :
    s'.num_part = s.num_part := by
  have h' : (match update_fitness env sfs c
      { (env.nextStep rng s).1 with
        smiles := env.embToSeq ((env.nextStep rng s).1).x
        x := env.seqToEmb (env.embToSeq ((env.nextStep rng s).1).x) } with
    | none => none
    | some (c₂, s₄) => some (c₂, s₄, (env.nextStep rng s).2)) =
    some (c', s', rng') := h
  cases hup : update_fitness env sfs c
      { (env.nextStep rng s).1 with
        smiles := env.embToSeq ((env.nextStep rng s).1).x
        x := env.seqToEmb (env.embToSeq ((env.nextStep rng s).1).x) } with
  | none => rw [hup] at h'; exact Option.noConfusion h'
  | some p =>
    rcases p with ⟨c₂, s₄⟩
    rw [hup] at h'
    have h4 := Option.some.inj h'
    have h5 : s₄ = s' := congrArg (fun q => q.2.1) h4
    have h6 := update_fitness_num_part env sfs c _ c₂ s₄ hup
    rw [← h5]
    rw [h6]
    exact hnum rng s

lemma advanceAllSeq_num_part (env : Env) (sfs : List SF)
    (hnum : ∀ (r : Rng) (t : Swarm), ((env.nextStep r t).1).num_part = t.num_part) :
    ∀ (ss : List Swarm) (c : Caches) (rng : Rng) (c' : Caches)
      (ss' : List Swarm) (rng' : Rng),
      advanceAllSeq env sfs c ss rng = some (c', ss', rng') →
      ss'.map Swarm.num_part = ss.map Swarm.num_part := by
  intro ss
  induction ss with
  | nil =>
    intro c rng c' ss' rng' h
    simp only [advanceAllSeq, Option.some.injEq, Prod.mk.injEq] at h
    rw [← h.2.1]
  | cons s tl ih =>
    intro c rng c' ss' rng' h
    simp only [advanceAllSeq] at h
    cases h1 : next_step_and_evaluate env sfs c s rng with
    | none => rw [h1] at h; exact Option.noConfusion h
    | some p =>
      rcases p with ⟨c₁, s₁, rng₁⟩
      rw [h1] at h
      have h' : (match advanceAllSeq env sfs c₁ tl rng₁ with
          | none => none
          | some (c'', ss'', rng'') => some (c'', s₁ :: ss'', rng'')) =
          some (c', ss', rng') := h
      cases h2 : advanceAllSeq env sfs c₁ tl rng₁ with
      | none => rw [h2] at h'; exact Option.noConfusion h'
      | some q =>
        rcases q with ⟨c₂, tl₂, rng₂⟩
        rw [h2] at h'
        have h4 := Option.some.inj h'
        have h3 : ss' = s₁ :: tl₂ :=
          (congrArg (fun r => r.2.1) h4).symm
        subst h3
        simp only [List.map_cons]
        rw [next_step_and_evaluate_num_part env sfs c s rng c₁ s₁ rng₁ hnum h1,
          ih c₁ rng₁ c₂ tl₂ rng₂ h2]

lemma parAssign_shift (env : Env) (sfs : List SF) (np : Nat)
    (sm : List Smi) (xs : List Emb) :
    ∀ (ss : List Swarm) (i : Nat) (c : Caches),
      parAssign env sfs np sm xs (i + 1) c ss =
      parAssign env sfs np (sm.drop np) (xs.drop np) i c ss := by
  intro ss
  induction ss with
  | nil => intro i c; rfl
  | cons s tl ih =>
    intro i c
    have hsm : sm.drop ((i + 1) * np) = (sm.drop np).drop (i * np) := by
      rw [List.drop_drop]
      congr 1
      ring
    have hxs : xs.drop ((i + 1) * np) = (xs.drop np).drop (i * np) := by
      rw [List.drop_drop]
      congr 1
      ring
    show (match update_fitness env sfs c
        { s with
          smiles := (sm.drop ((i + 1) * np)).take np
          x := (xs.drop ((i + 1) * np)).take np } with
      | none => none
      | some (c', s') =>
        match parAssign env sfs np sm xs (i + 1 + 1) c' tl with
        | none => none
        | some (c'', ss') => some (c'', s' :: ss')) =
      (match update_fitness env sfs c
        { s with
          smiles := ((sm.drop np).drop (i * np)).take np
          x := ((xs.drop np).drop (i * np)).take np } with
      | none => none
      | some (c', s') =>
        match parAssign env sfs np (sm.drop np) (xs.drop np) (i + 1) c' tl with
        | none => none
        | some (c'', ss') => some (c'', s' :: ss'))
    rw [hsm, hxs]
    cases update_fitness env sfs c
        { s with
          smiles := (((sm.drop np).drop (i * np))).take np
          x := (((xs.drop np).drop (i * np))).take np } with
    | none => rfl
    | some p =>
      rcases p with ⟨c', s'⟩
      dsimp only
      rw [ih (i + 1) c']

lemma advanceAll_eq_parCore (env : Env) (sfs : List SF) (f : Emb → Smi)
    (g : Smi → Emb) (np : Nat)
    (hf : ∀ l, env.embToSeq l = l.map f)
    (hg : ∀ l, env.seqToEmb l = l.map g)
    (hxlen : ∀ (r : Rng) (t : Swarm), ((env.nextStep r t).1).x.length = np) :
    ∀ (ss : List Swarm) (c : Caches) (rng : Rng),
      advanceAllSeq env sfs c ss rng =
        (match parAssign env sfs np
            (((mapNextStep env ss rng).1.map (fun s => s.x)).flatten.map f)
            ((((mapNextStep env ss rng).1.map (fun s => s.x)).flatten.map f).map g)
            0 c (mapNextStep env ss rng).1 with
         | none => none
         | some (c', ss') => some (c', ss', (mapNextStep env ss rng).2)) := by
  intro ss
  induction ss with
  | nil => intro c rng; rfl
  | cons s tl ih =>
    intro c rng
    have hs1len : ((env.nextStep rng s).1).x.length = np := hxlen rng s
    have hnse : next_step_and_evaluate env sfs c s rng =
        (match update_fitness env sfs c
          { (env.nextStep rng s).1 with
            smiles := ((env.nextStep rng s).1).x.map f
            x := (((env.nextStep rng s).1).x.map f).map g } with
        | none => none
        | some (c₂, s₄) => some (c₂, s₄, (env.nextStep rng s).2)) := by
      show (match update_fitness env sfs c
          { (env.nextStep rng s).1 with
            smiles := env.embToSeq ((env.nextStep rng s).1).x
            x := env.seqToEmb (env.embToSeq ((env.nextStep rng s).1).x) } with
        | none => none
        | some (c₂, s₄) => some (c₂, s₄, (env.nextStep rng s).2)) = _
      rw [hf, hg]
    simp only [advanceAllSeq, hnse, mapNextStep, parAssign, List.map_cons,
      List.flatten_cons, List.map_append, Nat.zero_mul, List.drop_zero,
      parAssign_shift, List.take_left', List.drop_left', List.length_map,
      hs1len]
    cases hup : update_fitness env sfs c
        { (env.nextStep rng s).1 with
          smiles := ((env.nextStep rng s).1).x.map f
          x := (((env.nextStep rng s).1).x.map f).map g } with
    | none => rfl
    | some p =>
      rcases p with ⟨c₂, s₄⟩
      dsimp only
      rw [ih c₂ (env.nextStep rng s).2]
      cases hpa : parAssign env sfs np
          (((mapNextStep env tl (env.nextStep rng s).2).1.map
            (fun s => s.x)).flatten.map f)
          ((((mapNextStep env tl (env.nextStep rng s).2).1.map
            (fun s => s.x)).flatten.map f).map g)
          0 c₂ (mapNextStep env tl (env.nextStep rng s).2).1 with
      | none => rfl
      | some q =>
        rcases q with ⟨c₃, ss₃⟩
        rfl

lemma advanceAll_eq_parAdvance (env : Env) (sfs : List SF) (f : Emb → Smi)
    (g : Smi → Emb) (np : Nat)
    (hf : ∀ l, env.embToSeq l = l.map f)
    (hg : ∀ l, env.seqToEmb l = l.map g)
    (hxlen : ∀ (r : Rng) (t : Swarm), ((env.nextStep r t).1).x.length = np)
    (s0 : Swarm) (rest : List Swarm) (c : Caches) (rng : Rng)
    (h0 : s0.num_part = np) :
    advanceAllSeq env sfs c (s0 :: rest) rng =
      parAdvance env sfs c (s0 :: rest) rng := by
  have hpar : parAdvance env sfs c (s0 :: rest) rng =
      (match parAssign env sfs np
          (((mapNextStep env (s0 :: rest) rng).1.map (fun s => s.x)).flatten.map f)
          ((((mapNextStep env (s0 :: rest) rng).1.map (fun s => s.x)).flatten.map f).map g)
          0 c (mapNextStep env (s0 :: rest) rng).1 with
       | none => none
       | some (c', ss') =>
         some (c', ss', (mapNextStep env (s0 :: rest) rng).2)) := by
    show (match parAssign env sfs s0.num_part
        (env.embToSeq
          ((mapNextStep env (s0 :: rest) rng).1.map (fun s => s.x)).flatten)
        (env.seqToEmb (env.embToSeq
          ((mapNextStep env (s0 :: rest) rng).1.map (fun s => s.x)).flatten))
        0 c (mapNextStep env (s0 :: rest) rng).1 with
     | none => none
     | some (c', ss') =>
       some (c', ss', (mapNextStep env (s0 :: rest) rng).2)) = _
    rw [hf, hg, h0]
  rw [advanceAll_eq_parCore env sfs f g np hf hg hxlen, hpar]

lemma seqLoop_eq_parLoop (env : Env) (sfs : List SF) (f : Emb → Smi)
    (g : Smi → Emb) (np nt : Nat)
    (hf : ∀ l, env.embToSeq l = l.map f)
    (hg : ∀ l, env.seqToEmb l = l.map g)
    (hxlen : ∀ (r : Rng) (t : Swarm), ((env.nextStep r t).1).x.length = np)
    (hnum : ∀ (r : Rng) (t : Swarm), ((env.nextStep r t).1).num_part = t.num_part) :
    ∀ (n step : Nat) (st : OptState) (rng : Rng),
      (∃ rest, st.swarms.map Swarm.num_part = np :: rest) →
      seqLoop env sfs nt n step st rng = parLoop env sfs nt n step st rng := by
  intro n
  induction n with
  | zero => intro step st rng _; rfl
  | succ n ih =>
    intro step st rng hinv
    simp only [seqLoop, parLoop]
    cases hh : update_best_fitness_history step st with
    | none => rfl
    | some st1 =>
      dsimp only
      have hsw1 : st1.swarms = st.swarms := (hist_step_spec st step st1 hh).2.2
      cases hb : update_best_solutions nt st1 with
      | none => rfl
      | some st2 =>
        dsimp only
        have hsw2 : st2.swarms = st1.swarms := best_solutions_swarms nt st1 st2 hb
        obtain ⟨rest, hrest⟩ := hinv
        have hinv2 : st2.swarms.map Swarm.num_part = np :: rest := by
          rw [hsw2, hsw1, hrest]
        obtain ⟨s0, tl, hcons, h0⟩ :
            ∃ s0 tl, st2.swarms = s0 :: tl ∧ s0.num_part = np := by
          cases hswl : st2.swarms with
          | nil => rw [hswl] at hinv2; simp at hinv2
          | cons a b =>
            rw [hswl] at hinv2
            simp only [List.map_cons, List.cons.injEq] at hinv2
            exact ⟨a, b, rfl, hinv2.1⟩
        rw [hcons]
        rw [advanceAll_eq_parAdvance env sfs f g np hf hg hxlen s0 tl
          st2.caches rng h0]
        cases ha : parAdvance env sfs st2.caches (s0 :: tl) rng with
        | none => rfl
        | some triple =>
          rcases triple with ⟨c', ss', rng'⟩
          dsimp only
          apply ih
          have hseq : advanceAllSeq env sfs st2.caches (s0 :: tl) rng =
              some (c', ss', rng') := by
            rw [advanceAll_eq_parAdvance env sfs f g np hf hg hxlen s0 tl
              st2.caches rng h0, ha]
          have hnp' : ss'.map Swarm.num_part = (s0 :: tl).map Swarm.num_part :=
            advanceAllSeq_num_part env sfs hnum (s0 :: tl) st2.caches rng c'
              ss' rng' hseq
          refine ⟨rest, ?_⟩
          show ss'.map Swarm.num_part = np :: rest
          rw [hnp', ← hcons, hinv2]

/-- C6.  Given a pointwise deterministic embedding model (decode and
re-encode act elementwise), a PSO step that is the only consumer of the
shared random stream and preserves particle counts, and swarms whose
particle positions after every step all have the common length `np` equal
to the first swarm's `num_part` (equal particle counts), the batched
strategy (`ParallelSwarmOptimizer`: one decode and one re-encode over the
concatenated batch, sliced back at offsets `i*num_part : (i+1)*num_part`)
produces exactly the same best-solutions table as the sequential strategy
after any number of steps. -/
theorem C6_batched_equals_sequential (env : Env) (sfs : List SF)
    (f : Emb → Smi) (g : Smi → Emb) (np nt N : Nat) (st : OptState)
    (rng : Rng)
    (hf : ∀ l, env.embToSeq l = l.map f)
    (hg : ∀ l, env.seqToEmb l = l.map g)
    (hxlen : ∀ (r : Rng) (t : Swarm), ((env.nextStep r t).1).x.length = np)
    (hnum : ∀ (r : Rng) (t : Swarm), ((env.nextStep r t).1).num_part = t.num_part)
    (hinv : ∃ rest, st.swarms.map Swarm.num_part = np :: rest) :
    (seqRun env sfs nt N st rng).map (fun p => p.1.best_solutions) =
    (parRun env sfs nt N st rng).map (fun p => p.1.best_solutions) := by
  unfold seqRun parRun
  cases hup : updateFitnessSwarms env sfs st.caches st.swarms with
  | none => rfl
  | some p =>
    rcases p with ⟨c, ss⟩
    dsimp only
    have hm : ss.map Swarm.num_part = st.swarms.map Swarm.num_part :=
      updateFitnessSwarms_num_part env sfs st.swarms st.caches c ss hup
    obtain ⟨rest, hrest⟩ := hinv
    rw [seqLoop_eq_parLoop env sfs f g np nt hf hg hxlen hnum N 0
      { st with caches := c, swarms := ss } rng
      ⟨rest, by dsimp only; rw [hm, hrest]⟩]

/-- Witness for `C6_batched_equals_sequential` at a concrete input. -/
theorem C6_witness :
    (seqRun envB [posSF] 5 1 stAB []).map (fun p => p.1.best_solutions) =
    (parRun envB [posSF] 5 1 stAB []).map (fun p => p.1.best_solutions) :=
  C6_batched_equals_sequential envB [posSF] (fun _ => "B") (fun _ => 0) 1 5 1
    stAB [] (fun _ => rfl) (fun _ => rfl) (fun _ _ => rfl) (fun _ _ => rfl)
    ⟨[], rfl⟩
